import Mathlib

/-!
Verification of the batch evaluation & ranking pipeline of the dental notes
comparison tool.

The development shallowly embeds the core logic of the repository:
  * `src/lib/openai.ts` — the judge client (`evaluateDentalNotes`) and the
    ranker (`rankEvaluations`);
  * `src/app/api/evaluate/route.ts` — the batch orchestrator (`POST` with its
    three execution paths `evaluatePartialBatch`, `evaluateBatchInChunks`,
    `evaluateBatchInMemory`);
  * the cross-group summarizer (`BatchSummary` component with its
    `noteTypeStats`, `rankedNoteTypes` and `generateCommentary`).

Modelling conventions:
  * JavaScript numbers are modelled by `ℚ` (the arithmetic the claims exercise
    is exact: sums of small integers, halving, and one-decimal rounding).
  * `Array.prototype.sort` is guaranteed stable with a user comparator.  A
    stable sort by a numeric key over elements tagged with their original
    position coincides with the unique sort by the strict total order
    "key, then original position", so it is modelled by `List.insertionSort`
    (itself stable) over position-tagged elements; sortedness plus
    permutation plus antisymmetry on the tags pins the output down uniquely.
  * `async` judge calls are modelled by an oracle `Judge` that fixes, per
    task, either the parsed judge verdict or a thrown failure (`none`).
  * Nondeterministic environment values of the source (`Date.now()` based
    ids, timestamps) are omitted from the records: no claim mentions them.
-/

namespace DentalNotes

open scoped List

attribute [local semireducible] Rat.add Rat.mul Rat.sub Rat.inv Rat.ofScientific

/-! ### Stable sorting with a numeric key (JS `Array.prototype.sort` model) -/

/-- An element tagged with its sort key and its original position, as built by
`evaluations.map((evaluation, index) => ({...evaluation, compositeScore, originalIndex: index}))`
in `rankEvaluations`; the same tagging gives the semantics of every other
stable `sort` call of the source. -/
structure Tagged (α : Type) where
  val : α
  key : ℚ
  idx : Nat
deriving DecidableEq

variable {α : Type}

/-- Tag every element of a list with its key and its position, starting at `n`. -/
def tagFrom (key : α → ℚ) : Nat → List α → List (Tagged α)
  | _, [] => []
  | n, a :: l => ⟨a, key a, n⟩ :: tagFrom key (n + 1) l

/-- Tag every element of a list with its key and its original position. -/
def tagList (key : α → ℚ) (l : List α) : List (Tagged α) :=
  tagFrom key 0 l

/-- The order a stable descending-by-key sort realises on tagged elements:
strictly greater key first, ties by original position. -/
def TagLeD (a b : Tagged α) : Prop :=
  b.key < a.key ∨ (a.key = b.key ∧ a.idx ≤ b.idx)

/-- The order a stable ascending-by-key sort realises on tagged elements. -/
def TagLeA (a b : Tagged α) : Prop :=
  a.key < b.key ∨ (a.key = b.key ∧ a.idx ≤ b.idx)

instance : DecidableRel (@TagLeD α) := fun a b =>
  inferInstanceAs (Decidable (b.key < a.key ∨ (a.key = b.key ∧ a.idx ≤ b.idx)))

instance : DecidableRel (@TagLeA α) := fun a b =>
  inferInstanceAs (Decidable (a.key < b.key ∨ (a.key = b.key ∧ a.idx ≤ b.idx)))

instance : IsTrans (Tagged α) TagLeD where
  trans a b c hab hbc := by
    rcases hab with h | ⟨he, hi⟩ <;> rcases hbc with h2 | ⟨he2, hi2⟩
    · exact Or.inl (lt_trans h2 h)
    · exact Or.inl (he2 ▸ h)
    · exact Or.inl (lt_of_lt_of_eq h2 he.symm)
    · exact Or.inr ⟨he.trans he2, le_trans hi hi2⟩

instance : IsTotal (Tagged α) TagLeD where
  total a b := by
    rcases lt_trichotomy a.key b.key with h | h | h
    · exact Or.inr (Or.inl h)
    · rcases Nat.le_total a.idx b.idx with hi | hi
      · exact Or.inl (Or.inr ⟨h, hi⟩)
      · exact Or.inr (Or.inr ⟨h.symm, hi⟩)
    · exact Or.inl (Or.inl h)

/-- A stable descending sort by `key`, with the position tags kept:
the model of `array.sort((a, b) => b.key - a.key)`. -/
def jsStableSortDesc (key : α → ℚ) (l : List α) : List (Tagged α) :=
  List.insertionSort TagLeD (tagList key l)

/-- A stable descending sort by `key` (tags dropped). -/
def jsSortDesc (key : α → ℚ) (l : List α) : List α :=
  (jsStableSortDesc key l).map (·.val)

/-- A stable ascending sort by `key`: the model of
`array.sort((a, b) => a.key - b.key)`. -/
def jsSortAsc (key : α → ℚ) (l : List α) : List α :=
  (List.insertionSort TagLeA (tagList key l)).map (·.val)

/-- The position the stable descending sort gives to the element that was at
input position `i`. -/
def sortPos (key : α → ℚ) (l : List α) (i : Nat) : Nat :=
  (jsStableSortDesc key l).findIdx (fun e => e.idx == i)

/-! ### Score records (`EvaluationResults` of `src/types/index.ts`) -/

/-- One of the two scored axes: `{score, explanation, examples}`. -/
structure ScoreBlock where
  score : ℚ
  explanation : String
  examples : List String
deriving DecidableEq

/-- Severity of a falsehood: the `'low' | 'medium' | 'high'` union type. -/
inductive Severity where
  | low
  | medium
  | high
deriving DecidableEq

/-- One identified falsehood.  The source id embeds `Date.now()`; only its
deterministic part (the index within the judge response) is kept. -/
structure Falsehood where
  id : String
  description : String
  severity : Severity
  location : String
  correction : String
deriving DecidableEq

/-- The judge's verdict on one (transcript, notes) pair. -/
structure EvaluationResults where
  detailScore : ScoreBlock
  truthfulnessScore : ScoreBlock
  falsehoods : List Falsehood
  summary : String
  overallRanking : ℤ
deriving DecidableEq

/-- A default record, used as the fallback of positional lookups. -/
def dfltResults : EvaluationResults :=
  ⟨⟨0, "", []⟩, ⟨0, "", []⟩, [], "", 0⟩

/-- The composite score: `(detailScore.score + truthfulnessScore.score) / 2`. -/
def compositeScore (e : EvaluationResults) : ℚ :=
  (e.detailScore.score + e.truthfulnessScore.score) / 2

/-! ### The ranker (`rankEvaluations` of `src/lib/openai.ts`) -/

/-- Produce a copy of a record with `overallRanking` set to `r`. -/
def setRank (r : ℤ) (e : EvaluationResults) : EvaluationResults :=
  { e with overallRanking := r }

/-- The in-place write `evaluations[originalIndex].overallRanking = rank`,
modelled as a positional update of the list standing for the array. -/
def writeRankAt : List EvaluationResults → Nat → ℤ → List EvaluationResults
  | [], _, _ => []
  | e :: es, 0, r => setRank r e :: es
  | e :: es, n + 1, r => e :: writeRankAt es n r

/-- The loop `evaluationsWithComposite.forEach((evaluation, index) =>
{ evaluations[evaluation.originalIndex].overallRanking = index + 1 })`:
`n` is the running value of `index`. -/
def assignRanks : Nat → List (Tagged EvaluationResults) → List EvaluationResults →
    List EvaluationResults
  | _, [], acc => acc
  | n, e :: es, acc => assignRanks (n + 1) es (writeRankAt acc e.idx ((n : ℤ) + 1))

/-- `rankEvaluations` of `src/lib/openai.ts`: tag each record with its
composite score and original index, sort those tags descending by composite
score (stable), then write rank `index + 1` back into the input array at each
tag's original index, and return the input array. -/
def rankEvaluations (evaluations : List EvaluationResults) : List EvaluationResults :=
  if evaluations.length = 0 then evaluations
  else assignRanks 0 (jsStableSortDesc compositeScore evaluations) evaluations

/-! ### Batch structures and the judge oracle -/

/-- One uploaded notes file: `{name, content}`. -/
structure NoteFile where
  name : String
  content : String
deriving DecidableEq

/-- One entry of `batchData.structure`:
`{transcript: {content} | null, notes: [{name, content}]}`. -/
structure TranscriptGroup where
  transcript : Option String
  notes : List NoteFile
deriving DecidableEq

/-- `batchData.structure` as an association list in object-key insertion
order (the order `Object.entries` iterates). -/
abbrev BatchStructure := List (String × TranscriptGroup)

/-- One enumerated evaluation task:
`{transcriptName, transcriptContent, noteFile}`. -/
structure EvalTask where
  transcriptName : String
  transcriptContent : String
  noteFile : NoteFile
deriving DecidableEq

/-- One produced `Evaluation` record.  The source also stores a random id and
a timestamp; both are environment-supplied nondeterminism no claim touches,
so they are omitted. -/
structure Evaluation where
  transcriptName : String
  noteFileName : String
  results : EvaluationResults
  noteContent : String
  transcriptContent : String
deriving DecidableEq

/-- A fixed assignment of judge outcomes per task: `some` is the parsed
verdict of a successful `evaluateDentalNotes` call, `none` a thrown failure. -/
abbrev Judge := EvalTask → Option EvaluationResults

/-- Build the `Evaluation` record pushed for a completed task. -/
def mkEvaluation (t : EvalTask) (results : EvaluationResults) : Evaluation :=
  ⟨t.transcriptName, t.noteFile.name, results, t.noteFile.content, t.transcriptContent⟩

/-- The pair identifying which task a record came from. -/
def namePair (e : Evaluation) : String × String :=
  (e.transcriptName, e.noteFileName)

/-- The total of `group.notes.length` over all groups: the `totalFiles`
reduce of `POST` — note it does not skip groups whose transcript is null. -/
def totalFilesOf (batch : BatchStructure) : Nat :=
  (batch.map (fun g => g.2.notes.length)).sum

/-- Task enumeration (the `allTasks` loop of `evaluateBatchInChunks`):
groups without a transcript are skipped, every note of the others becomes a
task, in group × note order. -/
def collectTasks : BatchStructure → List EvalTask
  | [] => []
  | (tName, g) :: gs =>
    match g.transcript with
    | none => collectTasks gs
    | some content => (g.notes.map (fun n => ⟨tName, content, n⟩)) ++ collectTasks gs

/-! ### Grouping by a string key (object / `Map` accumulation) -/

/-- One step of the grouping reduce: append to the key's list if the key was
seen, else add the key at the end (object keys keep insertion order). -/
def pushToGroup (keyOf : Evaluation → String) (acc : List (String × List Evaluation))
    (e : Evaluation) : List (String × List Evaluation) :=
  if keyOf e ∈ acc.map Prod.fst then
    acc.map (fun g => if g.1 = keyOf e then (g.1, g.2 ++ [e]) else g)
  else acc ++ [(keyOf e, [e])]

/-- Group a list of evaluations by a string key, keys in first-seen order,
members in input order — the `reduce`/`Map` grouping of the source. -/
def groupByKey (keyOf : Evaluation → String) (evals : List Evaluation) :
    List (String × List Evaluation) :=
  evals.foldl (pushToGroup keyOf) []

/-- Write a list of (ranked) results back onto the members of one transcript
group inside the full evaluation list: the `evaluations.forEach((evaluation,
index) => { evaluation.results = rankedResults[index] })` loop, where the
`k`-th element with the given transcript name receives the `k`-th result. -/
def writeBackGroup : List Evaluation → String → List EvaluationResults → List Evaluation
  | [], _, _ => []
  | e :: es, t, rs =>
    if e.transcriptName = t then
      match rs with
      | [] => e :: writeBackGroup es t []
      | r :: rs' => { e with results := r } :: writeBackGroup es t rs'
    else e :: writeBackGroup es t rs

/-- The ranking phase shared by all three batch paths: group the collected
evaluations by transcript name, rank each group with `rankEvaluations`, and
write each group's ranked results back in place. -/
def applyGroupRanking (evals : List Evaluation) : List Evaluation :=
  (groupByKey (fun e => e.transcriptName) evals).foldl
    (fun acc g => writeBackGroup acc g.1 (rankEvaluations (g.2.map (fun e => e.results))))
    evals

/-! ### The three batch execution paths of `src/app/api/evaluate/route.ts` -/

/-- The per-task body shared by the chunked path: try the judge, push the
record on success, log and continue on failure. -/
def runTaskList (judge : Judge) : List EvalTask → List Evaluation → List Evaluation
  | [], acc => acc
  | t :: ts, acc =>
    match judge t with
    | some results => runTaskList judge ts (acc ++ [mkEvaluation t results])
    | none => runTaskList judge ts acc

/-- The chunk loop `for (let i = 0; i < allTasks.length; i += chunkSize)`:
process `chunkSize` tasks, then the rest.  The source only ever calls this
with `chunkSize = 5`; the `chunkSize = 0` guard (on which the source loop
would not terminate) makes the recursion well founded. -/
def runChunks (judge : Judge) (chunkSize : Nat) (tasks : List EvalTask)
    (acc : List Evaluation) : List Evaluation :=
  if h : tasks = [] ∨ chunkSize = 0 then acc
  else
    runChunks judge chunkSize (tasks.drop chunkSize)
      (runTaskList judge (tasks.take chunkSize) acc)
termination_by tasks.length
decreasing_by
  simp only [not_or] at h
  have h1 : 0 < tasks.length := List.length_pos.mpr h.1
  have h2 : 0 < chunkSize := Nat.pos_of_ne_zero h.2
  simp only [List.length_drop]
  omega

/-- `evaluateBatchInChunks`: enumerate the tasks, run them chunk by chunk,
then rank per transcript group. -/
def evaluateBatchInChunks (batch : BatchStructure) (judge : Judge) (chunkSize : Nat) :
    List Evaluation :=
  applyGroupRanking (runChunks judge chunkSize (collectTasks batch) [])

/-- The inner note loop of `evaluateBatchInMemory` for one transcript group. -/
def runGroupNotes (judge : Judge) (tName tContent : String) :
    List NoteFile → List Evaluation → List Evaluation
  | [], acc => acc
  | n :: ns, acc =>
    match judge ⟨tName, tContent, n⟩ with
    | some results =>
      runGroupNotes judge tName tContent ns (acc ++ [mkEvaluation ⟨tName, tContent, n⟩ results])
    | none => runGroupNotes judge tName tContent ns acc

/-- The group loop of `evaluateBatchInMemory`: skip groups without a
transcript, evaluate each note of the others. -/
def collectInMemory (judge : Judge) : BatchStructure → List Evaluation → List Evaluation
  | [], acc => acc
  | (tName, g) :: gs, acc =>
    match g.transcript with
    | none => collectInMemory judge gs acc
    | some content => collectInMemory judge gs (runGroupNotes judge tName content g.notes acc)

/-- `evaluateBatchInMemory`: the direct path, group by group, then rank per
transcript group. -/
def evaluateBatchInMemory (batch : BatchStructure) (judge : Judge) : List Evaluation :=
  applyGroupRanking (collectInMemory judge batch [])

/-- State of the capped loop of `evaluatePartialBatch`: the accumulated
records, the `filesProcessed` counter, and a ghost counter of judge calls
actually made (one per `evaluateDentalNotes` invocation, successful or not). -/
structure CappedState where
  evals : List Evaluation
  processed : Nat
  attempts : Nat
deriving DecidableEq

/-- The note loop of `evaluatePartialBatch`: break once `filesProcessed`
reaches `maxFiles`; on success push the record and increment the counter, on
failure continue (the counter does not move). -/
def runNotesCapped (judge : Judge) (maxFiles : Nat) (tName tContent : String) :
    List NoteFile → CappedState → CappedState
  | [], s => s
  | n :: ns, s =>
    if s.processed ≥ maxFiles then s
    else
      match judge ⟨tName, tContent, n⟩ with
      | some results =>
        runNotesCapped judge maxFiles tName tContent ns
          ⟨s.evals ++ [mkEvaluation ⟨tName, tContent, n⟩ results], s.processed + 1,
            s.attempts + 1⟩
      | none => runNotesCapped judge maxFiles tName tContent ns ⟨s.evals, s.processed, s.attempts + 1⟩

/-- The group loop of `evaluatePartialBatch`: break once the cap is reached,
skip groups without a transcript. -/
def runGroupsCapped (judge : Judge) (maxFiles : Nat) : BatchStructure → CappedState → CappedState
  | [], s => s
  | (tName, g) :: gs, s =>
    if s.processed ≥ maxFiles then s
    else
      match g.transcript with
      | none => runGroupsCapped judge maxFiles gs s
      | some content =>
        runGroupsCapped judge maxFiles gs (runNotesCapped judge maxFiles tName content g.notes s)

/-- The collection phase of `evaluatePartialBatch`, from the empty state. -/
def evaluatePartialBatchState (batch : BatchStructure) (judge : Judge) (maxFiles : Nat) :
    CappedState :=
  runGroupsCapped judge maxFiles batch ⟨[], 0, 0⟩

/-- `evaluatePartialBatch`: collect up to `maxFiles` successful records, then
rank per transcript group. -/
def evaluatePartialBatch (batch : BatchStructure) (judge : Judge) (maxFiles : Nat) :
    List Evaluation :=
  applyGroupRanking (evaluatePartialBatchState batch judge maxFiles).evals

/-- Which execution path the `POST` handler took (a ghost tag recording the
branch; the source branches are otherwise only distinguishable by timing). -/
inductive BatchStrategy where
  | partialCap
  | chunked
  | direct
deriving DecidableEq

/-- The JSON body of the batch branch of `POST`. -/
structure BatchEvalResponse where
  success : Bool
  evaluations : List Evaluation
  isPartial : Bool
  totalFiles : Option Nat
  processedFiles : Option Nat
  strategy : BatchStrategy
deriving DecidableEq

/-- The batch branch of `POST`: compute `totalFiles` over all groups, then
select partial-cap (`> 100`), chunked (`> 5`) or the direct in-memory path. -/
def POSTBatchEvaluation (batch : BatchStructure) (judge : Judge) : BatchEvalResponse :=
  let totalFiles := totalFilesOf batch
  if totalFiles > 100 then
    let partialResults := evaluatePartialBatch batch judge 50
    ⟨true, partialResults, true, some totalFiles, some partialResults.length,
      BatchStrategy.partialCap⟩
  else if totalFiles > 5 then
    ⟨true, evaluateBatchInChunks batch judge 5, false, none, none, BatchStrategy.chunked⟩
  else
    ⟨true, evaluateBatchInMemory batch judge, false, none, none, BatchStrategy.direct⟩

/-- The strategy table exactly as the claims state it, keyed by a task count
`T`: direct for `T ≤ 5`, chunked for `5 < T ≤ 100`, partial-cap for
`T > 100`.  This definition follows the claim's words, to be compared with
the branch the code takes. -/
def specStrategyOf (T : Nat) : BatchStrategy :=
  if T > 100 then BatchStrategy.partialCap
  else if T > 5 then BatchStrategy.chunked
  else BatchStrategy.direct

/-! ### The cross-group summarizer (`BatchSummary` component) -/

/-- JavaScript `Math.round`: round half toward positive infinity. -/
def jsRound (x : ℚ) : ℤ :=
  ⌊x + 1 / 2⌋

/-- `Math.round(x * 10) / 10`: round to one decimal. -/
def roundTo1 (x : ℚ) : ℚ :=
  (jsRound (x * 10) : ℚ) / 10

/-- The unrounded mean detail score of a group of evaluations. -/
def rawAvgDetail (evals : List Evaluation) : ℚ :=
  ((evals.map (fun e => e.results.detailScore.score)).sum) / (evals.length : ℚ)

/-- The unrounded mean truthfulness score of a group of evaluations. -/
def rawAvgTruthfulness (evals : List Evaluation) : ℚ :=
  ((evals.map (fun e => e.results.truthfulnessScore.score)).sum) / (evals.length : ℚ)

/-- The unrounded mean composite score of a group of evaluations:
`(avgDetailScore + avgTruthfulnessScore) / 2` before any rounding.  This is
the quantity the claim says is compared; the code stores and compares the
rounded value. -/
def rawAvgComposite (evals : List Evaluation) : ℚ :=
  (rawAvgDetail evals + rawAvgTruthfulness evals) / 2

/-- Per-note-type statistics (`NoteTypeStats` of `BatchSummary`): the three
averages are stored rounded to one decimal (`Math.round(avg * 10) / 10`). -/
structure NoteTypeStats where
  filename : String
  evaluations : List Evaluation
  avgDetailScore : ℚ
  avgTruthfulnessScore : ℚ
  avgCompositeScore : ℚ
  totalFalsehoods : Nat
  transcriptCount : Nat
deriving DecidableEq

/-- Build the statistics record of one note type from its evaluations. -/
def mkNoteTypeStats (filename : String) (evals : List Evaluation) : NoteTypeStats :=
  ⟨filename, evals, roundTo1 (rawAvgDetail evals), roundTo1 (rawAvgTruthfulness evals),
    roundTo1 (rawAvgComposite evals),
    (evals.map (fun e => e.results.falsehoods.length)).sum, evals.length⟩

/-- `noteTypeStats`: group the evaluations by note filename (first-seen
order) and compute each group's statistics. -/
def noteTypeStatsOf (evaluations : List Evaluation) : List NoteTypeStats :=
  (groupByKey (fun e => e.noteFileName) evaluations).map (fun g => mkNoteTypeStats g.1 g.2)

/-- `rankedNoteTypes = [...noteTypeStats].sort((a, b) =>
b.avgCompositeScore - a.avgCompositeScore)`: the note-type ranking, sorted by
the stored (rounded) average composite score, stable. -/
def rankedNoteTypes (evaluations : List Evaluation) : List NoteTypeStats :=
  jsSortDesc (fun nt => nt.avgCompositeScore) (noteTypeStatsOf evaluations)

/-- The per-note-type consistency record of `generateCommentary`
(`{filename, variance, scores}`; `avg` is the local mean the source computes
on the way to the variance, kept here for observability). -/
structure ConsistencyScore where
  filename : String
  avg : ℚ
  variance : ℚ
  scores : List ℚ
deriving DecidableEq

/-- Compute one note type's consistency record: per-evaluation composite
scores, their mean, and their population variance. -/
def consistencyOf (nt : NoteTypeStats) : ConsistencyScore :=
  let scores := nt.evaluations.map
    (fun e => (e.results.detailScore.score + e.results.truthfulnessScore.score) / 2)
  let avg := scores.sum / (scores.length : ℚ)
  let variance := (scores.map (fun s => (s - avg) ^ 2)).sum / (scores.length : ℚ)
  ⟨nt.filename, avg, variance, scores⟩

/-- The state of `rankedNoteTypes` when `generateCommentary` computes the
consistency scores: the commentary's `sort` calls mutate the array in place,
so by then it has been re-sorted by detail score and then by truthfulness
score. -/
def commentaryPipelineStats (evaluations : List Evaluation) : List NoteTypeStats :=
  jsSortDesc (fun nt => nt.avgTruthfulnessScore)
    (jsSortDesc (fun nt => nt.avgDetailScore) (rankedNoteTypes evaluations))

/-- `consistencyScores` of `generateCommentary`. -/
def consistencyScoresOf (evaluations : List Evaluation) : List ConsistencyScore :=
  (commentaryPipelineStats evaluations).map consistencyOf

/-- `mostConsistent = consistencyScores.sort((a, b) => a.variance - b.variance)[0]`. -/
def mostConsistentOf (evaluations : List Evaluation) : Option ConsistencyScore :=
  (jsSortAsc (fun c => c.variance) (consistencyScoresOf evaluations)).head?

/-! ### The judge client (`evaluateDentalNotes` of `src/lib/openai.ts`) -/

/-- A parsed JSON value. -/
inductive Json where
  | null
  | bool (b : Bool)
  | num (q : ℚ)
  | str (s : String)
  | arr (elems : List Json)
  | obj (fields : List (String × Json))

/-- JavaScript member access `value.field`, `none` standing for `undefined`.
(Accessing a member of `null` throws in JS; in `evaluateDentalNotes` that
throw lands in the same catch-all as the `undefined.map` throw modelled
below, so the observable outcome is unchanged.) -/
def jsGet : Json → String → Option Json
  | Json.obj fields, k => (fields.find? (fun p => p.1 == k)).map (fun p => p.2)
  | _, _ => none

/-- One axis of the record `evaluateDentalNotes` builds: the fields are
copied from the parsed response without any validation, so each may be
`undefined`. -/
structure RawScoreBlock where
  score : Option Json
  explanation : Option Json
  examples : Option Json

/-- One falsehood as built by the `parsed.falsehoods.map` call: only the
array index of the generated id is kept (`Date.now()` is environmental). -/
structure RawFalsehood where
  idIndex : Nat
  description : Option Json
  severity : Option Json
  location : Option Json
  correction : Option Json

/-- The record `evaluateDentalNotes` returns: field for field the object
literal of the source, with unvalidated (possibly `undefined`) members. -/
structure RawEvaluationResults where
  detailScore : RawScoreBlock
  truthfulnessScore : RawScoreBlock
  falsehoods : List RawFalsehood
  summary : Option Json
  overallRanking : ℚ

/-- The observable outcome of one `evaluateDentalNotes` call: a returned
record, or the single wrapped error thrown from the catch-all. -/
inductive JudgeCallResult where
  | ok (results : RawEvaluationResults)
  | error (message : String)

/-- What the transport layer handed back before parsing:
`success content` is a completed chat call whose message content is absent
(`none`) or parses to the given JSON; `invalidJson` is content on which
`JSON.parse` throws; `transportError` is a rejected call. -/
inductive CompletionOutcome where
  | success (content : Option Json)
  | invalidJson (message : String)
  | transportError (message : String)

/-- Build one `RawFalsehood` from an element of the falsehoods array, as the
`(f, index) => ({...})` callback does.  Reading `f.description` on a `null`
element throws a TypeError in JS (modelled as `none` here); on every other
JSON value property access merely yields `undefined` for missing members. -/
def rawFalsehoodOf (p : Json × Nat) : Option RawFalsehood :=
  match p.1 with
  | Json.null => none
  | _ =>
    some ⟨p.2, jsGet p.1 "description", jsGet p.1 "severity", jsGet p.1 "location",
      jsGet p.1 "correction"⟩

/-- `parsed.falsehoods.map(...)` with a callback that can throw: the first
`null` element aborts the whole map (the thrown TypeError propagates),
otherwise the converted elements are collected in order. -/
def mapNullableFalsehoods : List (Json × Nat) → Option (List RawFalsehood)
  | [] => some []
  | p :: l =>
    (rawFalsehoodOf p).bind (fun b => (mapNullableFalsehoods l).map (fun bs => b :: bs))

/-- `evaluateDentalNotes` after the transport call: empty content throws, a
parse failure throws, any other error from the conversion throws, and every
throw is wrapped by the catch block into one generic error.  The conversion
itself copies fields blindly; the only operation that can throw is
`parsed.falsehoods.map`, which requires `falsehoods` to be an array. -/
def evaluateDentalNotes (outcome : CompletionOutcome) : JudgeCallResult :=
  match outcome with
  | CompletionOutcome.transportError m => JudgeCallResult.error ("OpenAI-eval-error: " ++ m)
  | CompletionOutcome.invalidJson m => JudgeCallResult.error ("OpenAI-eval-error: " ++ m)
  | CompletionOutcome.success none =>
    JudgeCallResult.error "OpenAI-eval-error: No response from OpenAI"
  | CompletionOutcome.success (some parsed) =>
    match jsGet parsed "falsehoods" with
    | some (Json.arr fs) =>
      match mapNullableFalsehoods (fs.zip (List.range fs.length)) with
      | some falsehoods =>
        JudgeCallResult.ok
          ⟨⟨jsGet parsed "detailScore", jsGet parsed "detailExplanation",
              jsGet parsed "detailExamples"⟩,
            ⟨jsGet parsed "truthfulnessScore", jsGet parsed "truthfulnessExplanation",
              jsGet parsed "truthfulnessExamples"⟩,
            falsehoods, jsGet parsed "summary", 0⟩
      | none =>
        JudgeCallResult.error "OpenAI-eval-error: TypeError: Cannot read properties of null"
    | _ => JudgeCallResult.error "OpenAI-eval-error: TypeError: parsed.falsehoods.map is not a function"

/-! ### Concrete inputs for the claim scenarios, and proof-level predicates -/

/-- Concrete score records with the given detail and truthfulness scores. -/
def mkResults (d t : ℚ) : EvaluationResults :=
  ⟨⟨d, "", []⟩, ⟨t, "", []⟩, [], "", 0⟩

/-- The spec's ranking scenario: detail/accuracy scores (9,9), (7,8), (5,6). -/
def c1Records : List EvaluationResults :=
  [mkResults 9 9, mkResults 7 8, mkResults 5 6]

/-- A record with composite score 1 and one with composite score 9. -/
def c7Low : EvaluationResults := mkResults 1 1

/-- See `c7Low`. -/
def c7High : EvaluationResults := mkResults 9 9

/-- Invariant of the grouping fold: keys are distinct, each group holds
exactly the already-processed evaluations with its key (in order), and every
processed evaluation's key is present. -/
def GroupInv (keyOf : Evaluation → String) (processed : List Evaluation)
    (acc : List (String × List Evaluation)) : Prop :=
  ((acc.map Prod.fst).Nodup)
  ∧ (∀ k g, (k, g) ∈ acc → g = processed.filter (fun e => keyOf e == k))
  ∧ (∀ e ∈ processed, keyOf e ∈ acc.map Prod.fst)

/-- One group with two notes, the second of which fails. -/
def c9Batch : BatchStructure :=
  [("t1", ⟨some "T", [⟨"a", "na"⟩, ⟨"b", "nb"⟩]⟩)]

/-- Succeeds on note "a", fails on everything else. -/
def c9Judge : Judge := fun t => if t.noteFile.name == "a" then some (mkResults 6 7) else none

/-- One group of three notes, the middle one of which will fail. -/
def c5Batch : BatchStructure :=
  [("t1", ⟨some "T", [⟨"a", "na"⟩, ⟨"b", "nb"⟩, ⟨"c", "nc"⟩]⟩)]

/-- The failing task of the scenario. -/
def c5K : EvalTask := ⟨"t1", "T", ⟨"b", "nb"⟩⟩

/-- Fails exactly on `c5K`, succeeds elsewhere. -/
def c5Judge : Judge := fun t => if t == c5K then none else some (mkResults 8 6)

/-- The 101 note files of the attempted-count counterexample. -/
def c2Notes : List NoteFile := (List.range 101).map (fun k => ⟨Nat.repr k, "c"⟩)

/-- One transcript group holding 101 notes: `totalFiles = 101 > 100`. -/
def c2Batch : BatchStructure := [("t1", ⟨some "T", c2Notes⟩)]

/-- A judge that always succeeds. -/
def c2JudgeOk : Judge := fun _ => some (mkResults 8 8)

/-- A judge that fails exactly on the first note (named "0"). -/
def c2JudgeFail : Judge :=
  fun t => if t.noteFile.name == "0" then none else some (mkResults 8 8)

/-- A batch whose transcript-less first group holds six notes and whose only
valid group holds one: 7 notes in total but a single enumerable task. -/
def c4Batch : BatchStructure :=
  [("g1", ⟨none, [⟨"n1", "c"⟩, ⟨"n2", "c"⟩, ⟨"n3", "c"⟩, ⟨"n4", "c"⟩, ⟨"n5", "c"⟩,
      ⟨"n6", "c"⟩]⟩),
    ("g2", ⟨some "T", [⟨"m1", "c"⟩]⟩)]

/-- A judge that always fails (the strategy choice does not depend on it). -/
def c4Judge : Judge := fun _ => none

/-- A default statistics record, used as the fallback of positional lookups. -/
def dfltStats : NoteTypeStats := ⟨"", [], 0, 0, 0, 0, 0⟩

/-- A concrete evaluation record for the summarizer scenarios. -/
def mkEvalRec (t f : String) (d tr : ℚ) : Evaluation :=
  ⟨t, f, mkResults d tr, "", ""⟩

/-- Variant "vA" has unrounded mean composite 7.75 (stored as 7.8), variant
"vB" has unrounded mean composite 7.8 (stored as 7.8). -/
def c3Evals : List Evaluation :=
  [mkEvalRec "t1" "vA" 8 8, mkEvalRec "t2" "vA" 7 8,
    mkEvalRec "t1" "vB" 8 8, mkEvalRec "t2" "vB" 8 8, mkEvalRec "t3" "vB" 8 8,
    mkEvalRec "t4" "vB" 8 8, mkEvalRec "t5" "vB" 7 7]

/-- Two groups, both holding "notes-gpt4o" (composites 9 and 7) and
"notes-claude" (composites 8 and 8). -/
def c8Evals : List Evaluation :=
  [mkEvalRec "t1" "notes-gpt4o" 9 9, mkEvalRec "t1" "notes-claude" 8 8,
    mkEvalRec "t2" "notes-gpt4o" 7 7, mkEvalRec "t2" "notes-claude" 8 8]

/-- A parseable judge response with no score fields at all: only an empty
falsehoods array and a summary. -/
def c6OffSchema : Json :=
  Json.obj [("falsehoods", Json.arr []), ("summary", Json.str "ok")]


/-! ## Lemmas about the stable sort model -/

theorem tagFrom_length (key : α → ℚ) : ∀ (n : Nat) (l : List α),
    (tagFrom key n l).length = l.length
  | _, [] => rfl
  | n, _ :: l => by simp [tagFrom, tagFrom_length key (n + 1) l]

theorem tagFrom_getElem? (key : α → ℚ) : ∀ (n : Nat) (l : List α) (i : Nat),
    (tagFrom key n l)[i]? = l[i]?.map (fun a => ⟨a, key a, n + i⟩)
  | _, [], _ => by simp [tagFrom]
  | n, a :: l, 0 => by simp [tagFrom]
  | n, a :: l, i + 1 => by
    simp only [tagFrom, List.getElem?_cons_succ, tagFrom_getElem? key (n + 1) l i]
    have : n + 1 + i = n + (i + 1) := by omega
    rw [this]

theorem tagList_length (key : α → ℚ) (l : List α) : (tagList key l).length = l.length :=
  tagFrom_length key 0 l

theorem tagList_getElem? (key : α → ℚ) (l : List α) (i : Nat) :
    (tagList key l)[i]? = l[i]?.map (fun a => ⟨a, key a, i⟩) := by
  simpa using tagFrom_getElem? key 0 l i

theorem mem_tagList (key : α → ℚ) {l : List α} {e : Tagged α} (he : e ∈ tagList key l) :
    l[e.idx]? = some e.val ∧ e.key = key e.val := by
  rcases List.mem_iff_getElem?.mp he with ⟨i, hi⟩
  rw [tagList_getElem?] at hi
  rcases Option.map_eq_some'.mp hi with ⟨a, ha, hae⟩
  cases hae
  exact ⟨ha, rfl⟩

theorem tagFrom_map_val (key : α → ℚ) : ∀ (n : Nat) (l : List α),
    (tagFrom key n l).map (fun e => e.val) = l
  | _, [] => rfl
  | n, a :: l => by simp [tagFrom, tagFrom_map_val key (n + 1) l]

theorem tagFrom_map_idx (key : α → ℚ) : ∀ (n : Nat) (l : List α),
    (tagFrom key n l).map (fun e => e.idx) = List.range' n l.length
  | _, [] => rfl
  | n, a :: l => by simp [tagFrom, tagFrom_map_idx key (n + 1) l, List.range'_succ]

theorem tagList_map_idx (key : α → ℚ) (l : List α) :
    (tagList key l).map (fun e => e.idx) = List.range l.length := by
  rw [tagList, tagFrom_map_idx, List.range_eq_range']

theorem jsStableSortDesc_perm (key : α → ℚ) (l : List α) :
    jsStableSortDesc key l ~ tagList key l :=
  List.perm_insertionSort TagLeD (tagList key l)

theorem jsStableSortDesc_length (key : α → ℚ) (l : List α) :
    (jsStableSortDesc key l).length = l.length :=
  ((jsStableSortDesc_perm key l).length_eq).trans (tagList_length key l)

theorem jsStableSortDesc_pairwise (key : α → ℚ) (l : List α) :
    (jsStableSortDesc key l).Pairwise TagLeD :=
  List.sorted_insertionSort TagLeD (tagList key l)

theorem mem_jsStableSortDesc (key : α → ℚ) {l : List α} {e : Tagged α} :
    e ∈ jsStableSortDesc key l ↔ e ∈ tagList key l :=
  (jsStableSortDesc_perm key l).mem_iff

theorem jsStableSortDesc_idx_nodup (key : α → ℚ) (l : List α) :
    ((jsStableSortDesc key l).map (fun e => e.idx)).Nodup := by
  have h := ((jsStableSortDesc_perm key l).map (fun e => e.idx)).nodup_iff
  rw [tagList_map_idx] at h
  exact h.mpr (List.nodup_range _)

theorem sortPos_lt (key : α → ℚ) (l : List α) (i : Nat) (hi : i < l.length) :
    sortPos key l i < l.length := by
  have hmem : (⟨l.get ⟨i, hi⟩, key (l.get ⟨i, hi⟩), i⟩ : Tagged α) ∈ jsStableSortDesc key l := by
    rw [mem_jsStableSortDesc]
    refine List.mem_iff_getElem?.mpr ⟨i, ?_⟩
    rw [tagList_getElem?, List.getElem?_eq_getElem hi]
    simp
  have := List.findIdx_lt_length_of_exists (p := fun e => e.idx == i)
    ⟨_, hmem, by simp⟩
  rw [jsStableSortDesc_length] at this
  exact this

theorem jsStableSortDesc_getElem_sortPos (key : α → ℚ) (l : List α) (i : Nat)
    (hi : i < l.length) :
    (jsStableSortDesc key l)[sortPos key l i]? =
      some ⟨l.get ⟨i, hi⟩, key (l.get ⟨i, hi⟩), i⟩ := by
  have hlt : sortPos key l i < (jsStableSortDesc key l).length := by
    rw [jsStableSortDesc_length]; exact sortPos_lt key l i hi
  obtain ⟨E, hE⟩ : ∃ E, (jsStableSortDesc key l)[sortPos key l i]? = some E :=
    ⟨_, List.getElem?_eq_getElem hlt⟩
  have hpE : E.idx = i := by
    have := List.findIdx_of_getElem?_eq_some (p := fun e : Tagged α => e.idx == i) hE
    simpa using this
  have hmemE : E ∈ jsStableSortDesc key l := List.mem_iff_getElem?.mpr ⟨_, hE⟩
  have htag := mem_tagList key ((mem_jsStableSortDesc key).mp hmemE)
  rw [hpE] at htag
  rcases htag with ⟨hval, hkey⟩
  rw [List.getElem?_eq_getElem hi] at hval
  have hval' : E.val = l.get ⟨i, hi⟩ := by
    have := hval.symm
    simpa using this
  rw [hE]
  congr 1
  cases E with
  | mk v k x =>
    simp only at hpE hval' hkey
    subst hpE
    subst hval'
    rw [hkey]

theorem sortPos_inj (key : α → ℚ) (l : List α) {i j : Nat} (hi : i < l.length)
    (hj : j < l.length) (h : sortPos key l i = sortPos key l j) : i = j := by
  have h1 := jsStableSortDesc_getElem_sortPos key l i hi
  have h2 := jsStableSortDesc_getElem_sortPos key l j hj
  rw [h, h2] at h1
  have h3 := congrArg Tagged.idx (Option.some.inj h1)
  simpa using h3.symm

theorem sortPos_lt_iff (key : α → ℚ) (l : List α) (i j : Nat) (hi : i < l.length)
    (hj : j < l.length) (hij : i ≠ j) :
    sortPos key l i < sortPos key l j ↔
      key (l.get ⟨j, hj⟩) < key (l.get ⟨i, hi⟩) ∨
        (key (l.get ⟨i, hi⟩) = key (l.get ⟨j, hj⟩) ∧ i < j) := by
  have hpi : sortPos key l i < (jsStableSortDesc key l).length := by
    rw [jsStableSortDesc_length]; exact sortPos_lt key l i hi
  have hpj : sortPos key l j < (jsStableSortDesc key l).length := by
    rw [jsStableSortDesc_length]; exact sortPos_lt key l j hj
  have hgi : (jsStableSortDesc key l)[sortPos key l i] =
      ⟨l.get ⟨i, hi⟩, key (l.get ⟨i, hi⟩), i⟩ := by
    have := jsStableSortDesc_getElem_sortPos key l i hi
    rw [List.getElem?_eq_getElem hpi] at this
    exact Option.some_injective _ this
  have hgj : (jsStableSortDesc key l)[sortPos key l j] =
      ⟨l.get ⟨j, hj⟩, key (l.get ⟨j, hj⟩), j⟩ := by
    have := jsStableSortDesc_getElem_sortPos key l j hj
    rw [List.getElem?_eq_getElem hpj] at this
    exact Option.some_injective _ this
  have hpair := List.pairwise_iff_getElem.mp (jsStableSortDesc_pairwise key l)
  constructor
  · intro hlt
    have h2 := hpair _ _ hpi hpj hlt
    rw [hgi, hgj] at h2
    simp only [TagLeD] at h2
    rcases h2 with h2 | ⟨he, hle⟩
    · exact Or.inl h2
    · exact Or.inr ⟨he, lt_of_le_of_ne hle hij⟩
  · intro hR
    rcases Nat.lt_trichotomy (sortPos key l i) (sortPos key l j) with h | h | h
    · exact h
    · exact absurd (sortPos_inj key l hi hj h) hij
    · exfalso
      have h2 := hpair _ _ hpj hpi h
      rw [hgi, hgj] at h2
      simp only [TagLeD] at h2
      rcases hR with hR | ⟨hRe, hRlt⟩
      · rcases h2 with h2 | ⟨h2e, _⟩
        · exact absurd hR (lt_asymm h2)
        · rw [h2e] at hR
          exact lt_irrefl _ hR
      · rcases h2 with h2 | ⟨_, h2le⟩
        · rw [hRe] at h2
          exact lt_irrefl _ h2
        · omega

theorem sortPos_range_perm (key : α → ℚ) (l : List α) :
    (List.range l.length).map (sortPos key l) ~ List.range l.length := by
  have hnd : ((List.range l.length).map (sortPos key l)).Nodup := by
    refine List.Nodup.map_on ?_ (List.nodup_range _)
    intro x hx y hy hxy
    exact sortPos_inj key l (List.mem_range.mp hx) (List.mem_range.mp hy) hxy
  have hsub : (List.range l.length).map (sortPos key l) ⊆ List.range l.length := by
    intro x hx
    rcases List.mem_map.mp hx with ⟨i, hi, rfl⟩
    exact List.mem_range.mpr (sortPos_lt key l i (List.mem_range.mp hi))
  have hsp := List.subperm_of_subset hnd hsub
  refine hsp.perm_of_length_le ?_
  simp

theorem jsSortDesc_perm (key : α → ℚ) (l : List α) : jsSortDesc key l ~ l := by
  have h := (jsStableSortDesc_perm key l).map (fun e => e.val)
  rw [show (tagList key l).map (fun e => e.val) = l from tagFrom_map_val key 0 l] at h
  exact h

theorem jsSortDesc_getElem_sortPos (key : α → ℚ) (l : List α) (i : Nat) (hi : i < l.length) :
    (jsSortDesc key l)[sortPos key l i]? = some (l.get ⟨i, hi⟩) := by
  rw [jsSortDesc, List.getElem?_map, jsStableSortDesc_getElem_sortPos key l i hi]
  rfl

theorem jsSortDesc_key_eq (key : α → ℚ) (l : List α) {e : Tagged α}
    (he : e ∈ jsStableSortDesc key l) : e.key = key e.val :=
  (mem_tagList key ((mem_jsStableSortDesc key).mp he)).2

theorem jsSortDesc_pairwise (key : α → ℚ) (l : List α) :
    (jsSortDesc key l).Pairwise (fun a b => key b ≤ key a) := by
  rw [jsSortDesc, List.pairwise_map]
  refine (jsStableSortDesc_pairwise key l).imp_of_mem ?_
  intro a b ha hb hab
  have hka := jsSortDesc_key_eq key l ha
  have hkb := jsSortDesc_key_eq key l hb
  rcases hab with h | ⟨h, _⟩
  · rw [hka, hkb] at h
    exact le_of_lt h
  · rw [hka, hkb] at h
    exact le_of_eq h.symm

/-! ## Lemmas about the ranker -/

theorem writeRankAt_length : ∀ (l : List EvaluationResults) (n : Nat) (r : ℤ),
    (writeRankAt l n r).length = l.length
  | [], _, _ => rfl
  | _ :: es, 0, _ => rfl
  | _ :: es, n + 1, r => by simp [writeRankAt, writeRankAt_length es n r]

theorem writeRankAt_getElem?_ne : ∀ (l : List EvaluationResults) (n : Nat) (r : ℤ)
    (m : Nat), m ≠ n → (writeRankAt l n r)[m]? = l[m]?
  | [], _, _, _, _ => rfl
  | e :: es, 0, r, 0, hm => absurd rfl hm
  | e :: es, 0, r, m + 1, _ => by simp [writeRankAt]
  | e :: es, n + 1, r, 0, _ => by simp [writeRankAt]
  | e :: es, n + 1, r, m + 1, hm => by
    simp only [writeRankAt, List.getElem?_cons_succ]
    exact writeRankAt_getElem?_ne es n r m (fun h => hm (by omega))

theorem writeRankAt_getElem?_self : ∀ (l : List EvaluationResults) (n : Nat) (r : ℤ),
    (writeRankAt l n r)[n]? = l[n]?.map (setRank r)
  | [], _, _ => by simp [writeRankAt]
  | e :: es, 0, r => by simp [writeRankAt]
  | e :: es, n + 1, r => by
    simp only [writeRankAt, List.getElem?_cons_succ]
    exact writeRankAt_getElem?_self es n r

theorem assignRanks_length : ∀ (es : List (Tagged EvaluationResults)) (n : Nat)
    (acc : List EvaluationResults), (assignRanks n es acc).length = acc.length
  | [], _, _ => rfl
  | e :: es, n, acc => by
    simp [assignRanks, assignRanks_length es (n + 1), writeRankAt_length]

theorem assignRanks_getElem?_ne : ∀ (es : List (Tagged EvaluationResults)) (n : Nat)
    (acc : List EvaluationResults) (j : Nat), (∀ e ∈ es, e.idx ≠ j) →
    (assignRanks n es acc)[j]? = acc[j]?
  | [], _, _, _, _ => rfl
  | e :: es, n, acc, j, h => by
    rw [assignRanks, assignRanks_getElem?_ne es (n + 1) _ j (fun x hx => h x (List.mem_cons_of_mem e hx))]
    exact writeRankAt_getElem?_ne acc e.idx _ j (fun hj => h e (List.mem_cons_self e es) hj.symm)

theorem assignRanks_getElem? : ∀ (es : List (Tagged EvaluationResults)) (n : Nat)
    (acc : List EvaluationResults) (j k : Nat) (hk : k < es.length),
    ((es.map (fun e => e.idx)).Nodup) → (es.get ⟨k, hk⟩).idx = j →
    (assignRanks n es acc)[j]? = acc[j]?.map (setRank (((n + k : ℕ) : ℤ) + 1))
  | [], _, _, _, k, hk, _, _ => absurd hk (by simp)
  | e :: es, n, acc, j, 0, hk, hnd, hj => by
    have he : e.idx = j := hj
    have htail : ∀ x ∈ es, x.idx ≠ j := by
      intro x hx hxj
      have : e.idx ∈ es.map (fun e => e.idx) := by
        rw [he, ← hxj]
        exact List.mem_map_of_mem _ hx
      exact (List.nodup_cons.mp hnd).1 this
    rw [assignRanks, assignRanks_getElem?_ne es (n + 1) _ j htail, he,
      writeRankAt_getElem?_self]
    norm_num
  | e :: es, n, acc, j, k + 1, hk, hnd, hj => by
    have hk' : k < es.length := by simpa using hk
    have hj' : (es.get ⟨k, hk'⟩).idx = j := by simpa using hj
    have hne : e.idx ≠ j := by
      intro hej
      have hmem : e.idx ∈ es.map (fun e => e.idx) := by
        rw [hej, ← hj']
        exact List.mem_map_of_mem _ (es.get_mem _ _)
      exact (List.nodup_cons.mp hnd).1 hmem
    rw [assignRanks, assignRanks_getElem? es (n + 1) _ j k hk' (List.nodup_cons.mp hnd).2 hj',
      writeRankAt_getElem?_ne acc e.idx _ j (fun h => hne h.symm)]
    have harith : n + 1 + k = n + (k + 1) := by omega
    rw [harith]

theorem rankEvaluations_length (l : List EvaluationResults) :
    (rankEvaluations l).length = l.length := by
  rw [rankEvaluations]
  split
  · rfl
  · rw [assignRanks_length]

theorem rankEvaluations_getElem? (l : List EvaluationResults) (i : Nat) (hi : i < l.length) :
    (rankEvaluations l)[i]? =
      some (setRank (((sortPos compositeScore l i : ℕ) : ℤ) + 1) (l.get ⟨i, hi⟩)) := by
  have hlen : ¬ l.length = 0 := by omega
  rw [rankEvaluations, if_neg hlen]
  have hk : sortPos compositeScore l i < (jsStableSortDesc compositeScore l).length := by
    rw [jsStableSortDesc_length]
    exact sortPos_lt compositeScore l i hi
  have hidx : ((jsStableSortDesc compositeScore l).get ⟨sortPos compositeScore l i, hk⟩).idx = i := by
    have h := jsStableSortDesc_getElem_sortPos compositeScore l i hi
    rw [List.getElem?_eq_getElem hk] at h
    have := Option.some.inj h
    rw [List.get_eq_getElem, this]
  rw [assignRanks_getElem? _ 0 l i _ hk (jsStableSortDesc_idx_nodup compositeScore l) hidx,
    List.getElem?_eq_getElem hi]
  simp

theorem rankEvaluations_map_rank (l : List EvaluationResults) :
    (rankEvaluations l).map (fun e => e.overallRanking) =
      (List.range l.length).map (fun i => ((sortPos compositeScore l i : ℕ) : ℤ) + 1) := by
  apply List.ext_getElem?
  intro n
  rw [List.getElem?_map, List.getElem?_map]
  by_cases hn : n < l.length
  · rw [rankEvaluations_getElem? l n hn, List.getElem?_eq_getElem (by simpa using hn)]
    simp [setRank]
  · rw [List.getElem?_eq_none, List.getElem?_eq_none]
    · rfl
    · simpa using Nat.le_of_not_lt hn
    · rw [rankEvaluations_length]
      exact Nat.le_of_not_lt hn

theorem rankEvaluations_rank_perm (l : List EvaluationResults) :
    (rankEvaluations l).map (fun e => e.overallRanking) ~
      (List.range l.length).map (fun (k : ℕ) => (k : ℤ) + 1) := by
  rw [rankEvaluations_map_rank]
  have h := (sortPos_range_perm compositeScore l).map (fun p => ((p : ℕ) : ℤ) + 1)
  rw [List.map_map] at h
  exact h

theorem rankEvaluations_rank_nodup (l : List EvaluationResults) :
    ((rankEvaluations l).map (fun e => e.overallRanking)).Nodup := by
  refine (rankEvaluations_rank_perm l).nodup_iff.mpr ?_
  refine List.Nodup.map (fun a b hab => ?_) (List.nodup_range _)
  have h2 : (a : ℤ) + 1 = (b : ℤ) + 1 := hab
  omega

theorem rankEvaluations_getD (l : List EvaluationResults) (i : Nat) (hi : i < l.length) :
    (rankEvaluations l).getD i dfltResults =
      setRank (((sortPos compositeScore l i : ℕ) : ℤ) + 1) (l.getD i dfltResults) := by
  rw [List.getD_eq_getElem?_getD, rankEvaluations_getElem? l i hi,
    List.getD_eq_getElem?_getD, List.getElem?_eq_getElem hi]
  simp

theorem getD_eq_get (l : List EvaluationResults) (i : Nat) (hi : i < l.length) :
    l.getD i dfltResults = l.get ⟨i, hi⟩ := by
  rw [List.getD_eq_getElem?_getD, List.getElem?_eq_getElem hi]
  simp

/-- C1: for a non-empty group of score records, `rankEvaluations` assigns
ranks forming a dense permutation of `1..N`; rank order is descending
composite score with ties won by the earlier input position; and the rank-1
record's composite score is maximal in the group. -/
theorem ranker_dense_permutation (l : List EvaluationResults) (hne : l ≠ []) :
    ((rankEvaluations l).map (fun e => e.overallRanking) ~
        (List.range l.length).map (fun (k : ℕ) => (k : ℤ) + 1))
    ∧ (∀ i j : Nat, i < l.length → j < l.length → i ≠ j →
        (((rankEvaluations l).getD i dfltResults).overallRanking <
            ((rankEvaluations l).getD j dfltResults).overallRanking ↔
          compositeScore (l.getD j dfltResults) < compositeScore (l.getD i dfltResults)
            ∨ (compositeScore (l.getD i dfltResults) = compositeScore (l.getD j dfltResults)
                ∧ i < j)))
    ∧ (∀ i : Nat, i < l.length →
        ((rankEvaluations l).getD i dfltResults).overallRanking = 1 →
        ∀ j : Nat, j < l.length →
          compositeScore (l.getD j dfltResults) ≤ compositeScore (l.getD i dfltResults)) := by
  refine ⟨rankEvaluations_rank_perm l, ?_, ?_⟩
  · intro i j hi hj hij
    rw [rankEvaluations_getD l i hi, rankEvaluations_getD l j hj,
      getD_eq_get l i hi, getD_eq_get l j hj]
    simp only [setRank]
    have hiff := sortPos_lt_iff compositeScore l i j hi hj hij
    constructor
    · intro h
      exact hiff.mp (by omega)
    · intro h
      have := hiff.mpr h
      omega
  · intro i hi hrank j hj
    by_cases hij : j = i
    · rw [hij]
    · rw [rankEvaluations_getD l i hi] at hrank
      simp only [setRank] at hrank
      have hpi : sortPos compositeScore l i = 0 := by omega
      have hpj : sortPos compositeScore l i < sortPos compositeScore l j := by
        rcases Nat.eq_zero_or_pos (sortPos compositeScore l j) with h0 | h0
        · exact absurd (sortPos_inj compositeScore l hi hj (h0 ▸ hpi)) (fun h => hij h.symm)
        · omega
      have h := (sortPos_lt_iff compositeScore l i j hi hj (fun h => hij h.symm)).mp hpj
      rw [getD_eq_get l i hi, getD_eq_get l j hj]
      rcases h with h | ⟨h, _⟩
      · exact le_of_lt h
      · exact le_of_eq h.symm

/-- C1 witness: the dense-permutation theorem applied to the spec's
three-record scenario. -/
theorem ranker_dense_permutation_witness :
    c1Records ≠ [] ∧
    (((rankEvaluations c1Records).map (fun e => e.overallRanking) ~
        (List.range c1Records.length).map (fun (k : ℕ) => (k : ℤ) + 1))
    ∧ (∀ i j : Nat, i < c1Records.length → j < c1Records.length → i ≠ j →
        (((rankEvaluations c1Records).getD i dfltResults).overallRanking <
            ((rankEvaluations c1Records).getD j dfltResults).overallRanking ↔
          compositeScore (c1Records.getD j dfltResults) <
              compositeScore (c1Records.getD i dfltResults)
            ∨ (compositeScore (c1Records.getD i dfltResults) =
                compositeScore (c1Records.getD j dfltResults) ∧ i < j)))
    ∧ (∀ i : Nat, i < c1Records.length →
        ((rankEvaluations c1Records).getD i dfltResults).overallRanking = 1 →
        ∀ j : Nat, j < c1Records.length →
          compositeScore (c1Records.getD j dfltResults) ≤
            compositeScore (c1Records.getD i dfltResults))) :=
  ⟨by decide, ranker_dense_permutation c1Records (by decide)⟩

/-- C10: `rankEvaluations` on the empty sequence returns the empty sequence
(the `if (evaluations.length === 0) return evaluations` guard); being a total
function of the embedding, it raises no error. -/
theorem ranker_empty_input : rankEvaluations [] = [] := rfl

/-- C7 counterexample: on the input `[low, high]` the ranker returns the
records in input order — the first returned record carries rank 2 — so the
output sequence is not in ranked order, contradicting the claim that the
output is in ranked order rather than input order (and rank assignment in
the source happens by writing into the caller's array, not through returned
copies). -/
theorem ranker_output_order_counterexample :
    (rankEvaluations [c7Low, c7High]).map (fun e => e.overallRanking) = [2, 1] ∧
      ¬ (rankEvaluations [c7Low, c7High]).map (fun e => e.overallRanking) = [1, 2] := by
  decide

/-- C7 amended: `rankEvaluations` returns the input sequence in input order —
record by record identical to its input except for the `overallRanking`
field, which it writes in place (through the caller's array). -/
theorem ranker_preserves_input_order (l : List EvaluationResults) :
    (rankEvaluations l).map (setRank 0) = l.map (setRank 0) := by
  apply List.ext_getElem?
  intro n
  rw [List.getElem?_map, List.getElem?_map]
  by_cases hn : n < l.length
  · rw [rankEvaluations_getElem? l n hn, List.getElem?_eq_getElem hn]
    simp [setRank]
  · rw [List.getElem?_eq_none, List.getElem?_eq_none]
    · exact Nat.le_of_not_lt hn
    · rw [rankEvaluations_length]
      exact Nat.le_of_not_lt hn

/-! ## Lemmas about grouping and the ranking phase -/

theorem writeBackGroup_map_namePair : ∀ (l : List Evaluation) (t : String)
    (rs : List EvaluationResults), (writeBackGroup l t rs).map namePair = l.map namePair
  | [], _, _ => rfl
  | e :: es, t, rs => by
    by_cases h : e.transcriptName = t
    · cases rs with
      | nil => simp [writeBackGroup, h, namePair, writeBackGroup_map_namePair es]
      | cons r rs' => simp [writeBackGroup, h, namePair, writeBackGroup_map_namePair es]
    · simp [writeBackGroup, h, writeBackGroup_map_namePair es]

theorem writeBackGroup_filter_ne : ∀ (l : List Evaluation) (t : String)
    (rs : List EvaluationResults) (t' : String), t' ≠ t →
    (writeBackGroup l t rs).filter (fun e => e.transcriptName == t') =
      l.filter (fun e => e.transcriptName == t')
  | [], _, _, _, _ => rfl
  | e :: es, t, rs, t', hne => by
    by_cases h : e.transcriptName = t
    · have h2 : (e.transcriptName == t') = false := by
        rw [beq_eq_false_iff_ne, h]
        exact fun hh => hne hh.symm
      cases rs with
      | nil =>
        simp only [writeBackGroup, if_pos h, List.filter_cons, h2]
        exact writeBackGroup_filter_ne es t [] t' hne
      | cons r rs' =>
        simp only [writeBackGroup, if_pos h, List.filter_cons, h2]
        exact writeBackGroup_filter_ne es t rs' t' hne
    · simp only [writeBackGroup, if_neg h, List.filter_cons]
      rw [writeBackGroup_filter_ne es t rs t' hne]

theorem writeBackGroup_filter_eq : ∀ (l : List Evaluation) (t : String)
    (rs : List EvaluationResults),
    (l.filter (fun e => e.transcriptName == t)).length = rs.length →
    (writeBackGroup l t rs).filter (fun e => e.transcriptName == t) =
      List.zipWith (fun e r => { e with results := r })
        (l.filter (fun e => e.transcriptName == t)) rs
  | [], t, rs, _ => by simp [writeBackGroup]
  | e :: es, t, rs, hlen => by
    by_cases h : e.transcriptName = t
    · have hb : (e.transcriptName == t) = true := by simp [h]
      cases rs with
      | nil =>
        rw [List.filter_cons, if_pos (by simp [hb])] at hlen
        simp at hlen
      | cons r rs' =>
        have hlen' : (es.filter (fun e => e.transcriptName == t)).length = rs'.length := by
          rw [List.filter_cons, if_pos (by simp [hb])] at hlen
          simpa using hlen
        simp only [writeBackGroup, if_pos h, List.filter_cons, hb]
        have hb2 : (({ e with results := r } : Evaluation).transcriptName == t) = true := hb
        simp only [hb2, if_pos]
        rw [writeBackGroup_filter_eq es t rs' hlen']
        simp
    · have hb : (e.transcriptName == t) = false := by simp [h]
      have hlen' : (es.filter (fun e => e.transcriptName == t)).length = rs.length := by
        rw [List.filter_cons, if_neg (by simp [hb])] at hlen
        exact hlen
      simp only [writeBackGroup, if_neg h, List.filter_cons, hb]
      exact writeBackGroup_filter_eq es t rs hlen'

theorem groupInv_push (keyOf : Evaluation → String) (p : List Evaluation)
    (acc : List (String × List Evaluation)) (e : Evaluation) (h : GroupInv keyOf p acc) :
    GroupInv keyOf (p ++ [e]) (pushToGroup keyOf acc e) := by
  obtain ⟨hnd, hfil, hmem⟩ := h
  by_cases hk : keyOf e ∈ acc.map Prod.fst
  · rw [pushToGroup, if_pos hk]
    have hkeys : (acc.map (fun g => if g.1 = keyOf e then (g.1, g.2 ++ [e]) else g)).map
        Prod.fst = acc.map Prod.fst := by
      rw [List.map_map]
      apply List.map_congr_left
      intro g _
      by_cases hg : g.1 = keyOf e <;> simp [hg]
    refine ⟨?_, ?_, ?_⟩
    · rw [hkeys]
      exact hnd
    · intro k g hkg
      rcases List.mem_map.mp hkg with ⟨⟨k0, g0⟩, hg0, hupd⟩
      by_cases hg : k0 = keyOf e
      · simp only [hg, if_pos rfl] at hupd
        have hk1 : k = keyOf e := by cases hupd; exact hg.symm ▸ rfl
        have hg1 : g = g0 ++ [e] := by cases hupd; rfl
        rw [hk1, hg1, List.filter_append, hfil k0 g0 hg0, hg]
        simp
      · simp only [if_neg hg] at hupd
        have hk1 : k = k0 := by cases hupd; rfl
        have hg1 : g = g0 := by cases hupd; rfl
        rw [hk1, hg1, List.filter_append, hfil k0 g0 hg0]
        have : (keyOf e == k0) = false := by
          rw [beq_eq_false_iff_ne]
          exact fun hh => hg hh.symm
        simp [this]
    · intro x hx
      rw [hkeys]
      rcases List.mem_append.mp hx with hx | hx
      · exact hmem x hx
      · rw [List.mem_singleton.mp hx]
        exact hk
  · rw [pushToGroup, if_neg hk]
    refine ⟨?_, ?_, ?_⟩
    · rw [List.map_append]
      simp only [List.map_cons, List.map_nil]
      rw [List.nodup_append]
      refine ⟨hnd, List.nodup_singleton _, ?_⟩
      intro a ha hb
      rw [List.mem_singleton.mp hb] at ha
      exact hk ha
    · intro k g hkg
      rcases List.mem_append.mp hkg with hkg | hkg
      · have hkin : k ∈ acc.map Prod.fst := List.mem_map.mpr ⟨(k, g), hkg, rfl⟩
        rw [hfil k g hkg, List.filter_append]
        have : (keyOf e == k) = false := by
          rw [beq_eq_false_iff_ne]
          exact fun hh => hk (hh ▸ hkin)
        simp [this]
      · have h2 := List.mem_singleton.mp hkg
        have hkg2 : k = keyOf e ∧ g = [e] :=
          ⟨congrArg Prod.fst h2, congrArg Prod.snd h2⟩
        rw [hkg2.1, hkg2.2, List.filter_append]
        have hp : p.filter (fun x => keyOf x == keyOf e) = [] := by
          rw [List.filter_eq_nil_iff]
          intro a ha hae
          exact hk (by rw [← show keyOf a = keyOf e from by simpa using hae]; exact hmem a ha)
        rw [hp]
        simp
    · intro x hx
      rw [List.map_append]
      rcases List.mem_append.mp hx with hx | hx
      · exact List.mem_append_left _ (hmem x hx)
      · rw [List.mem_singleton.mp hx]
        simp

theorem groupInv_foldl (keyOf : Evaluation → String) : ∀ (rest p : List Evaluation)
    (acc : List (String × List Evaluation)), GroupInv keyOf p acc →
    GroupInv keyOf (p ++ rest) (rest.foldl (pushToGroup keyOf) acc)
  | [], p, acc, h => by simpa using h
  | e :: rest, p, acc, h => by
    have h3 := groupInv_foldl keyOf rest (p ++ [e]) _ (groupInv_push keyOf p acc e h)
    simpa [List.append_assoc] using h3

theorem groupByKey_inv (keyOf : Evaluation → String) (evals : List Evaluation) :
    GroupInv keyOf evals (groupByKey keyOf evals) := by
  have h0 : GroupInv keyOf [] [] := ⟨List.nodup_nil, by simp, by simp⟩
  have h := groupInv_foldl keyOf evals [] [] h0
  simpa [groupByKey] using h

theorem foldl_writeBack_filter_ne (t : String) :
    ∀ (groups : List (String × List Evaluation)) (acc : List Evaluation),
    (∀ g ∈ groups, g.1 ≠ t) →
    ((groups.foldl
        (fun acc g => writeBackGroup acc g.1 (rankEvaluations (g.2.map (fun e => e.results))))
        acc).filter (fun e => e.transcriptName == t))
      = acc.filter (fun e => e.transcriptName == t)
  | [], acc, _ => rfl
  | g :: gs, acc, h => by
    rw [List.foldl_cons,
      foldl_writeBack_filter_ne t gs _ (fun x hx => h x (List.mem_cons_of_mem g hx))]
    exact writeBackGroup_filter_ne acc g.1 _ t
      (fun ht => (h g (List.mem_cons_self g gs)) ht.symm)

theorem foldl_writeBack_map_namePair :
    ∀ (groups : List (String × List Evaluation)) (acc : List Evaluation),
    ((groups.foldl
        (fun acc g => writeBackGroup acc g.1 (rankEvaluations (g.2.map (fun e => e.results))))
        acc).map namePair) = acc.map namePair
  | [], _ => rfl
  | g :: gs, acc => by
    rw [List.foldl_cons, foldl_writeBack_map_namePair gs _]
    exact writeBackGroup_map_namePair acc g.1 _

theorem applyGroupRanking_map_namePair (evals : List Evaluation) :
    (applyGroupRanking evals).map namePair = evals.map namePair := by
  rw [applyGroupRanking]
  exact foldl_writeBack_map_namePair _ evals

theorem applyGroupRanking_length (evals : List Evaluation) :
    (applyGroupRanking evals).length = evals.length := by
  have h := congrArg List.length (applyGroupRanking_map_namePair evals)
  simpa using h

theorem applyGroupRanking_filter (evals : List Evaluation) (t : String) :
    (applyGroupRanking evals).filter (fun e => e.transcriptName == t) =
      List.zipWith (fun e r => { e with results := r })
        (evals.filter (fun e => e.transcriptName == t))
        (rankEvaluations
          ((evals.filter (fun e => e.transcriptName == t)).map (fun e => e.results))) := by
  obtain ⟨hnd, hfil, hmem⟩ := groupByKey_inv (fun e => e.transcriptName) evals
  by_cases ht : t ∈ (groupByKey (fun e => e.transcriptName) evals).map Prod.fst
  · rcases List.mem_map.mp ht with ⟨⟨k0, gt⟩, hgt, hk0⟩
    have hk0t : k0 = t := hk0
    subst hk0t
    rcases List.append_of_mem hgt with ⟨s, u, hsplit⟩
    have hgroup : gt = evals.filter (fun e => e.transcriptName == k0) := hfil k0 gt hgt
    have hnd2 := hnd
    rw [hsplit, List.map_append, List.map_cons, List.nodup_append] at hnd2
    obtain ⟨hnds, hndc, hdisj⟩ := hnd2
    have hsne : ∀ g ∈ s, g.1 ≠ k0 := by
      intro g hg hgk
      exact hdisj (List.mem_map.mpr ⟨g, hg, rfl⟩) (by rw [hgk]; exact List.mem_cons_self _ _)
    have hune : ∀ g ∈ u, g.1 ≠ k0 := by
      intro g hg hgk
      have := (List.nodup_cons.mp hndc).1
      exact this (by rw [← hgk]; exact List.mem_map.mpr ⟨g, hg, rfl⟩)
    rw [applyGroupRanking, hsplit, List.foldl_append, List.foldl_cons]
    rw [foldl_writeBack_filter_ne k0 u _ hune]
    have hacc1 : ((s.foldl
        (fun acc g => writeBackGroup acc g.1 (rankEvaluations (g.2.map (fun e => e.results))))
        evals).filter (fun e => e.transcriptName == k0))
        = evals.filter (fun e => e.transcriptName == k0) :=
      foldl_writeBack_filter_ne k0 s evals hsne
    have hlen : (((s.foldl
        (fun acc g => writeBackGroup acc g.1 (rankEvaluations (g.2.map (fun e => e.results))))
        evals)).filter (fun e => e.transcriptName == k0)).length =
        (rankEvaluations (gt.map (fun e => e.results))).length := by
      rw [hacc1, rankEvaluations_length, List.length_map, hgroup]
    rw [writeBackGroup_filter_eq _ k0 _ hlen, hacc1, hgroup]
  · have hempty : evals.filter (fun e => e.transcriptName == t) = [] := by
      rw [List.filter_eq_nil_iff]
      intro a ha hpa
      exact ht (by rw [← show a.transcriptName = t from by simpa using hpa]; exact hmem a ha)
    have hall : ∀ g ∈ groupByKey (fun e => e.transcriptName) evals, g.1 ≠ t := by
      intro g hg hgt
      exact ht (by rw [← hgt]; exact List.mem_map.mpr ⟨g, hg, rfl⟩)
    rw [applyGroupRanking, foldl_writeBack_filter_ne t _ evals hall, hempty]
    simp

/-! ## Lemmas about the execution paths -/

theorem runTaskList_eq (judge : Judge) : ∀ (ts : List EvalTask) (acc : List Evaluation),
    runTaskList judge ts acc =
      acc ++ (ts.filter (fun t => (judge t).isSome)).map
        (fun t => mkEvaluation t ((judge t).getD dfltResults))
  | [], acc => by simp [runTaskList]
  | t :: ts, acc => by
    cases hj : judge t with
    | some r =>
      simp only [runTaskList, hj, runTaskList_eq judge ts, List.filter_cons, Option.isSome_some,
        if_pos, List.map_cons, Option.getD_some, List.append_assoc, List.singleton_append]
    | none =>
      simp only [runTaskList, hj, runTaskList_eq judge ts, List.filter_cons, Option.isSome_none,
        Bool.false_eq_true, if_neg, List.map_cons]
      simp

theorem runTaskList_append (judge : Judge) : ∀ (l1 l2 : List EvalTask) (acc : List Evaluation),
    runTaskList judge (l1 ++ l2) acc = runTaskList judge l2 (runTaskList judge l1 acc)
  | [], l2, acc => rfl
  | t :: l1, l2, acc => by
    cases hj : judge t with
    | some r =>
      simp only [List.cons_append, runTaskList, hj]
      exact runTaskList_append judge l1 l2 _
    | none =>
      simp only [List.cons_append, runTaskList, hj]
      exact runTaskList_append judge l1 l2 _

theorem runChunks_eq_runTaskList (judge : Judge) (c : Nat) (hc : 0 < c) :
    ∀ (n : Nat) (tasks : List EvalTask), tasks.length ≤ n → ∀ (acc : List Evaluation),
    runChunks judge c tasks acc = runTaskList judge tasks acc := by
  intro n
  induction n with
  | zero =>
    intro tasks hlen acc
    have he : tasks = [] := List.length_eq_zero.mp (Nat.le_zero.mp hlen)
    subst he
    rw [runChunks, dif_pos (Or.inl rfl)]
    rfl
  | succ n ih =>
    intro tasks hlen acc
    by_cases he : tasks = []
    · subst he
      rw [runChunks, dif_pos (Or.inl rfl)]
      rfl
    · rw [runChunks, dif_neg (by simp only [not_or]; exact ⟨he, Nat.pos_iff_ne_zero.mp hc⟩)]
      have hdrop : (tasks.drop c).length ≤ n := by
        rw [List.length_drop]
        have h1 : 0 < tasks.length := List.length_pos.mpr he
        omega
      rw [ih (tasks.drop c) hdrop _, ← runTaskList_append judge (tasks.take c) (tasks.drop c) acc,
        List.take_append_drop]

theorem runGroupNotes_eq (judge : Judge) (tName tContent : String) :
    ∀ (ns : List NoteFile) (acc : List Evaluation),
    runGroupNotes judge tName tContent ns acc =
      runTaskList judge (ns.map (fun n => ⟨tName, tContent, n⟩)) acc
  | [], acc => rfl
  | n :: ns, acc => by
    cases hj : judge ⟨tName, tContent, n⟩ with
    | some r =>
      simp only [runGroupNotes, List.map_cons, runTaskList, hj]
      exact runGroupNotes_eq judge tName tContent ns _
    | none =>
      simp only [runGroupNotes, List.map_cons, runTaskList, hj]
      exact runGroupNotes_eq judge tName tContent ns _

theorem collectInMemory_eq (judge : Judge) : ∀ (batch : BatchStructure) (acc : List Evaluation),
    collectInMemory judge batch acc = runTaskList judge (collectTasks batch) acc
  | [], acc => rfl
  | (tName, g) :: gs, acc => by
    cases hg : g.transcript with
    | none =>
      simp only [collectInMemory, collectTasks, hg]
      exact collectInMemory_eq judge gs acc
    | some content =>
      simp only [collectInMemory, collectTasks, hg, runTaskList_append]
      rw [collectInMemory_eq judge gs, runGroupNotes_eq]

/-- C9: for every batch and every fixed assignment of judge outcomes per
task, the chunked path and the direct in-memory path return the same record
sequence: same records, same order, identical rank assignments — chunk
boundaries (any positive chunk size) have no observable effect. -/
theorem chunked_refines_inMemory (batch : BatchStructure) (judge : Judge) (c : Nat)
    (hc : 0 < c) : evaluateBatchInChunks batch judge c = evaluateBatchInMemory batch judge := by
  rw [evaluateBatchInChunks, evaluateBatchInMemory,
    runChunks_eq_runTaskList judge c hc (collectTasks batch).length (collectTasks batch)
      (le_refl _) [], collectInMemory_eq]

/-- C9 witness: the refinement applied at chunk size 5 to a concrete batch. -/
theorem chunked_refines_inMemory_witness :
    0 < 5 ∧ evaluateBatchInChunks c9Batch c9Judge 5 = evaluateBatchInMemory c9Batch c9Judge :=
  ⟨by decide, chunked_refines_inMemory c9Batch c9Judge 5 (by decide)⟩

theorem zipWith_setResults_map_rank : ∀ (es : List Evaluation) (rs : List EvaluationResults),
    es.length = rs.length →
    (List.zipWith (fun e r => { e with results := r }) es rs).map
        (fun e => e.results.overallRanking) = rs.map (fun r => r.overallRanking)
  | [], [], _ => rfl
  | [], _ :: _, h => by simp at h
  | _ :: _, [], h => by simp at h
  | e :: es, r :: rs, h => by
    simp only [List.zipWith_cons_cons, List.map_cons]
    rw [zipWith_setResults_map_rank es rs (by simpa using h)]

theorem length_filter_not_beq (K : EvalTask) : ∀ (l : List EvalTask),
    (l.filter (fun t => !(t == K))).length = l.length - l.count K
  | [] => rfl
  | t :: l => by
    have hcle := List.count_le_length K l
    have ih := length_filter_not_beq K l
    by_cases h : t = K <;>
      simp [List.filter_cons, List.count_cons, h, ih] <;>
      omega

/-- C5: if exactly one task `K` of a chunked batch fails and every other
task succeeds, the handler still answers success, every other task's record
appears in the final ranked output in task order, and the group containing
`K` ends with `N - 1` records whose ranks form a dense permutation of
`1..(N-1)`. -/
theorem chunked_failure_isolation (batch : BatchStructure) (judge : Judge) (K : EvalTask)
    (hcount : (collectTasks batch).count K = 1)
    (hfail : judge K = none)
    (hrest : ∀ t ∈ collectTasks batch, t ≠ K → (judge t).isSome) :
    (POSTBatchEvaluation batch judge).success = true
    ∧ (evaluateBatchInChunks batch judge 5).map namePair =
        ((collectTasks batch).filter (fun t => !(t == K))).map
          (fun t => (t.transcriptName, t.noteFile.name))
    ∧ ((evaluateBatchInChunks batch judge 5).filter
          (fun e => e.transcriptName == K.transcriptName)).map
        (fun e => e.results.overallRanking) ~
      (List.range
          (((collectTasks batch).filter
              (fun t => t.transcriptName == K.transcriptName)).length - 1)).map
        (fun (k : ℕ) => (k : ℤ) + 1) := by
  have hsucc : (POSTBatchEvaluation batch judge).success = true := by
    rw [POSTBatchEvaluation]
    split
    · rfl
    · split <;> rfl
  have hfcongr : (collectTasks batch).filter (fun t => (judge t).isSome) =
      (collectTasks batch).filter (fun t => !(t == K)) := by
    apply List.filter_congr
    intro t ht
    by_cases htK : t = K
    · subst htK
      rw [hfail]
      simp
    · have := hrest t ht htK
      simp [this, htK]
  have hcollected : runChunks judge 5 (collectTasks batch) [] =
      ((collectTasks batch).filter (fun t => !(t == K))).map
        (fun t => mkEvaluation t ((judge t).getD dfltResults)) := by
    rw [runChunks_eq_runTaskList judge 5 (by omega) (collectTasks batch).length _ (le_refl _) [],
      runTaskList_eq, hfcongr]
    simp
  refine ⟨hsucc, ?_, ?_⟩
  · rw [evaluateBatchInChunks, applyGroupRanking_map_namePair, hcollected, List.map_map]
    apply List.map_congr_left
    intro t _
    rfl
  · rw [evaluateBatchInChunks, applyGroupRanking_filter, hcollected]
    set tasks := collectTasks batch with htasks
    set tK := K.transcriptName with htK
    set flt := (tasks.filter (fun t => !(t == K))).filter
      (fun t => t.transcriptName == tK) with hflt
    have hfm : ((tasks.filter (fun t => !(t == K))).map
          (fun t => mkEvaluation t ((judge t).getD dfltResults))).filter
        (fun e => e.transcriptName == tK) =
        flt.map (fun t => mkEvaluation t ((judge t).getD dfltResults)) := by
      rw [List.filter_map]
      rfl
    rw [hfm]
    have hlen2 : (flt.map (fun t => mkEvaluation t ((judge t).getD dfltResults))).length =
        (rankEvaluations ((flt.map (fun t => mkEvaluation t ((judge t).getD dfltResults))).map
          (fun e => e.results))).length := by
      rw [rankEvaluations_length]
      simp
    rw [zipWith_setResults_map_rank _ _ hlen2]
    have hperm := rankEvaluations_rank_perm
      ((flt.map (fun t => mkEvaluation t ((judge t).getD dfltResults))).map (fun e => e.results))
    have hlen3 : ((flt.map (fun t => mkEvaluation t ((judge t).getD dfltResults))).map
        (fun e => e.results)).length = (tasks.filter
          (fun t => t.transcriptName == tK)).length - 1 := by
      rw [List.length_map, List.length_map, hflt]
      rw [List.filter_comm]
      rw [length_filter_not_beq K (tasks.filter (fun t => t.transcriptName == tK))]
      congr 1
      rw [List.count_filter (by simp)]
      exact hcount
    rw [hlen3] at hperm
    exact hperm

/-- C5 witness: failure isolation applied to the three-note scenario with
exactly one failing task. -/
theorem chunked_failure_isolation_witness :
    (collectTasks c5Batch).count c5K = 1
    ∧ c5Judge c5K = none
    ∧ (∀ t ∈ collectTasks c5Batch, t ≠ c5K → (c5Judge t).isSome)
    ∧ ((POSTBatchEvaluation c5Batch c5Judge).success = true
      ∧ (evaluateBatchInChunks c5Batch c5Judge 5).map namePair =
          ((collectTasks c5Batch).filter (fun t => !(t == c5K))).map
            (fun t => (t.transcriptName, t.noteFile.name))
      ∧ ((evaluateBatchInChunks c5Batch c5Judge 5).filter
            (fun e => e.transcriptName == c5K.transcriptName)).map
          (fun e => e.results.overallRanking) ~
        (List.range
            (((collectTasks c5Batch).filter
                (fun t => t.transcriptName == c5K.transcriptName)).length - 1)).map
          (fun (k : ℕ) => (k : ℤ) + 1)) :=
  ⟨by decide, rfl, by decide,
    chunked_failure_isolation c5Batch c5Judge c5K (by decide) rfl (by decide)⟩

/-! ## Lemmas about the partial-cap path -/

theorem runNotesCapped_success (judge : Judge) (maxFiles : Nat) (tName tContent : String) :
    ∀ (ns : List NoteFile) (s : CappedState),
    (∀ n ∈ ns, (judge ⟨tName, tContent, n⟩).isSome) →
    runNotesCapped judge maxFiles tName tContent ns s =
      ⟨s.evals ++ ((ns.take (maxFiles - s.processed)).map
          (fun n => mkEvaluation ⟨tName, tContent, n⟩
            ((judge ⟨tName, tContent, n⟩).getD dfltResults))),
        s.processed + min (maxFiles - s.processed) ns.length,
        s.attempts + min (maxFiles - s.processed) ns.length⟩
  | [], s, _ => by simp [runNotesCapped]
  | n :: ns, s, hok => by
    by_cases hp : s.processed ≥ maxFiles
    · have h0 : maxFiles - s.processed = 0 := by omega
      rw [runNotesCapped, if_pos hp, h0]
      simp
    · obtain ⟨r, hr⟩ := Option.isSome_iff_exists.mp (hok n (List.mem_cons_self n ns))
      have hstep : runNotesCapped judge maxFiles tName tContent (n :: ns) s =
          runNotesCapped judge maxFiles tName tContent ns
            ⟨s.evals ++ [mkEvaluation ⟨tName, tContent, n⟩ r], s.processed + 1,
              s.attempts + 1⟩ := by
        rw [runNotesCapped, if_neg hp, hr]
      rw [hstep, runNotesCapped_success judge maxFiles tName tContent ns _
        (fun x hx => hok x (List.mem_cons_of_mem _ hx))]
      have h1 : maxFiles - s.processed = (maxFiles - (s.processed + 1)) + 1 := by omega
      rw [CappedState.mk.injEq]
      refine ⟨?_, by simp; omega, by simp; omega⟩
      rw [h1, List.take_succ_cons, List.map_cons]
      simp [hr]

theorem runGroupsCapped_success (judge : Judge) (maxFiles : Nat) :
    ∀ (batch : BatchStructure) (s : CappedState),
    (∀ t ∈ collectTasks batch, (judge t).isSome) →
    runGroupsCapped judge maxFiles batch s =
      ⟨s.evals ++ (((collectTasks batch).take (maxFiles - s.processed)).map
          (fun t => mkEvaluation t ((judge t).getD dfltResults))),
        s.processed + min (maxFiles - s.processed) (collectTasks batch).length,
        s.attempts + min (maxFiles - s.processed) (collectTasks batch).length⟩
  | [], s, _ => by simp [runGroupsCapped, collectTasks]
  | (tName, g) :: gs, s, hok => by
    by_cases hp : s.processed ≥ maxFiles
    · have h0 : maxFiles - s.processed = 0 := by omega
      rw [runGroupsCapped, if_pos hp, h0]
      simp
    · cases hg : g.transcript with
      | none =>
        have hts : collectTasks ((tName, g) :: gs) = collectTasks gs := by
          rw [collectTasks, hg]
        rw [runGroupsCapped, if_neg hp, hg, hts,
          runGroupsCapped_success judge maxFiles gs s (by rw [← hts]; exact hok)]
      | some content =>
        have hts : collectTasks ((tName, g) :: gs) =
            (g.notes.map (fun n => (⟨tName, content, n⟩ : EvalTask))) ++ collectTasks gs := by
          rw [collectTasks, hg]
        have hokn : ∀ n ∈ g.notes, (judge ⟨tName, content, n⟩).isSome := by
          intro n hn
          apply hok
          rw [hts]
          exact List.mem_append_left _ (List.mem_map_of_mem _ hn)
        have hokg : ∀ t ∈ collectTasks gs, (judge t).isSome := by
          intro t htk
          apply hok
          rw [hts]
          exact List.mem_append_right _ htk
        have hstep : runGroupsCapped judge maxFiles ((tName, g) :: gs) s =
            runGroupsCapped judge maxFiles gs
              (runNotesCapped judge maxFiles tName content g.notes s) := by
          rw [runGroupsCapped, if_neg hp, hg]
        rw [hstep, runNotesCapped_success judge maxFiles tName content g.notes s hokn,
          runGroupsCapped_success judge maxFiles gs _ hokg, hts]
        rw [CappedState.mk.injEq]
        refine ⟨?_, ?_, ?_⟩
        · rw [List.take_append_eq_append_take, List.map_append, ← List.append_assoc]
          congr 2
          · rw [← List.map_take, List.map_map]
            rfl
          · congr 1
            simp
            omega
        · simp
          omega
        · simp
          omega

/-- Unconditionally — whatever the judge returns — the capped note loop moves
`evals` and `processed` in lockstep (each success appends one record and
increments the counter once) and never pushes `processed` past the cap. -/
theorem runNotesCapped_lockstep (judge : Judge) (maxFiles : Nat) (tName tContent : String) :
    ∀ (ns : List NoteFile) (s : CappedState),
    (runNotesCapped judge maxFiles tName tContent ns s).evals.length + s.processed =
      s.evals.length + (runNotesCapped judge maxFiles tName tContent ns s).processed
    ∧ (s.processed ≤ maxFiles →
        (runNotesCapped judge maxFiles tName tContent ns s).processed ≤ maxFiles)
  | [], s => by simp [runNotesCapped]
  | n :: ns, s => by
    by_cases hp : s.processed ≥ maxFiles
    · rw [runNotesCapped, if_pos hp]
      exact ⟨rfl, fun h => h⟩
    · cases hj : judge ⟨tName, tContent, n⟩ with
      | some r =>
        have hstep : runNotesCapped judge maxFiles tName tContent (n :: ns) s =
            runNotesCapped judge maxFiles tName tContent ns
              ⟨s.evals ++ [mkEvaluation ⟨tName, tContent, n⟩ r], s.processed + 1,
                s.attempts + 1⟩ := by
          rw [runNotesCapped, if_neg hp, hj]
        rw [hstep]
        obtain ⟨ih1, ih2⟩ := runNotesCapped_lockstep judge maxFiles tName tContent ns
          ⟨s.evals ++ [mkEvaluation ⟨tName, tContent, n⟩ r], s.processed + 1, s.attempts + 1⟩
        simp only [List.length_append, List.length_cons, List.length_nil] at ih1
        exact ⟨by omega, fun _ => ih2 (show s.processed + 1 ≤ maxFiles by omega)⟩
      | none =>
        have hstep : runNotesCapped judge maxFiles tName tContent (n :: ns) s =
            runNotesCapped judge maxFiles tName tContent ns
              ⟨s.evals, s.processed, s.attempts + 1⟩ := by
          rw [runNotesCapped, if_neg hp, hj]
        rw [hstep]
        obtain ⟨ih1, ih2⟩ := runNotesCapped_lockstep judge maxFiles tName tContent ns
          ⟨s.evals, s.processed, s.attempts + 1⟩
        exact ⟨ih1, ih2⟩

/-- The lockstep/cap invariant lifted to the group loop, again with no
assumption on the judge. -/
theorem runGroupsCapped_lockstep (judge : Judge) (maxFiles : Nat) :
    ∀ (batch : BatchStructure) (s : CappedState),
    (runGroupsCapped judge maxFiles batch s).evals.length + s.processed =
      s.evals.length + (runGroupsCapped judge maxFiles batch s).processed
    ∧ (s.processed ≤ maxFiles →
        (runGroupsCapped judge maxFiles batch s).processed ≤ maxFiles)
  | [], s => by simp [runGroupsCapped]
  | (tName, g) :: gs, s => by
    by_cases hp : s.processed ≥ maxFiles
    · rw [runGroupsCapped, if_pos hp]
      exact ⟨rfl, fun h => h⟩
    · cases hg : g.transcript with
      | none =>
        have hstep : runGroupsCapped judge maxFiles ((tName, g) :: gs) s =
            runGroupsCapped judge maxFiles gs s := by
          rw [runGroupsCapped, if_neg hp, hg]
        rw [hstep]
        exact runGroupsCapped_lockstep judge maxFiles gs s
      | some content =>
        have hstep : runGroupsCapped judge maxFiles ((tName, g) :: gs) s =
            runGroupsCapped judge maxFiles gs
              (runNotesCapped judge maxFiles tName content g.notes s) := by
          rw [runGroupsCapped, if_neg hp, hg]
        rw [hstep]
        obtain ⟨hn1, hn2⟩ := runNotesCapped_lockstep judge maxFiles tName content g.notes s
        obtain ⟨hg1, hg2⟩ := runGroupsCapped_lockstep judge maxFiles gs
          (runNotesCapped judge maxFiles tName content g.notes s)
        exact ⟨by omega, fun h => hg2 (hn2 h)⟩

/-- C2 (amended): for every batch whose `totalFiles` count exceeds 100 — with
no assumption on the judge — the handler answers `isPartial = true` with both
counts, takes the partial-cap branch, reports `processedFiles` equal to the
number of produced records, and produces at most 50 records.  When in
addition every attempted judge call succeeds, it produces exactly
`min 50 E` records (E = number of enumerated tasks, which skips groups
without a transcript), makes exactly that many judge calls, and the produced
records are the first `min 50 E` enumerated tasks in order. -/
theorem partial_cap_invariant (batch : BatchStructure) (judge : Judge)
    (hT : totalFilesOf batch > 100) :
    (POSTBatchEvaluation batch judge).isPartial = true
    ∧ (POSTBatchEvaluation batch judge).strategy = BatchStrategy.partialCap
    ∧ (POSTBatchEvaluation batch judge).totalFiles = some (totalFilesOf batch)
    ∧ (POSTBatchEvaluation batch judge).processedFiles =
        some (POSTBatchEvaluation batch judge).evaluations.length
    ∧ (POSTBatchEvaluation batch judge).evaluations.length ≤ 50
    ∧ ((∀ t ∈ collectTasks batch, (judge t).isSome) →
        (POSTBatchEvaluation batch judge).evaluations.length =
            min 50 (collectTasks batch).length
        ∧ (evaluatePartialBatchState batch judge 50).attempts =
            min 50 (collectTasks batch).length
        ∧ (POSTBatchEvaluation batch judge).evaluations.map namePair =
            ((collectTasks batch).take 50).map
              (fun t => (t.transcriptName, t.noteFile.name))) := by
  have hPOST : POSTBatchEvaluation batch judge =
      ⟨true, evaluatePartialBatch batch judge 50, true, some (totalFilesOf batch),
        some (evaluatePartialBatch batch judge 50).length, BatchStrategy.partialCap⟩ := by
    rw [POSTBatchEvaluation]
    simp only [hT, if_pos]
  have hlock1 : (runGroupsCapped judge 50 batch ⟨[], 0, 0⟩).evals.length + 0 =
      0 + (runGroupsCapped judge 50 batch ⟨[], 0, 0⟩).processed :=
    (runGroupsCapped_lockstep judge 50 batch ⟨[], 0, 0⟩).1
  have hlock2 : (runGroupsCapped judge 50 batch ⟨[], 0, 0⟩).processed ≤ 50 :=
    (runGroupsCapped_lockstep judge 50 batch ⟨[], 0, 0⟩).2 (Nat.zero_le 50)
  have hle : (evaluatePartialBatch batch judge 50).length ≤ 50 := by
    rw [evaluatePartialBatch, applyGroupRanking_length, evaluatePartialBatchState]
    omega
  rw [hPOST]
  refine ⟨rfl, rfl, rfl, rfl, hle, ?_⟩
  intro hok
  have hstate : evaluatePartialBatchState batch judge 50 =
      ⟨((collectTasks batch).take 50).map (fun t => mkEvaluation t ((judge t).getD dfltResults)),
        min 50 (collectTasks batch).length, min 50 (collectTasks batch).length⟩ := by
    rw [evaluatePartialBatchState, runGroupsCapped_success judge 50 batch ⟨[], 0, 0⟩ hok]
    simp
  have hevals : (evaluatePartialBatch batch judge 50).map namePair =
      ((collectTasks batch).take 50).map (fun t => (t.transcriptName, t.noteFile.name)) := by
    rw [evaluatePartialBatch, applyGroupRanking_map_namePair, hstate]
    rw [List.map_map]
    apply List.map_congr_left
    intro t _
    rfl
  have hlen : (evaluatePartialBatch batch judge 50).length =
      min 50 (collectTasks batch).length := by
    rw [evaluatePartialBatch, applyGroupRanking_length, hstate]
    simp
  exact ⟨hlen, by rw [hstate], hevals⟩

/-- C2 counterexample: on a batch of 101 tasks whose first judge call fails,
the partial-cap path attempts 51 judge calls, not `min 50 T` = 50 — the cap
counts successfully produced records, not attempts. -/
theorem partial_cap_attempts_counterexample :
    totalFilesOf c2Batch = 101
    ∧ (evaluatePartialBatchState c2Batch c2JudgeFail 50).attempts = 51
    ∧ ¬ ((evaluatePartialBatchState c2Batch c2JudgeFail 50).attempts =
        min 50 (totalFilesOf c2Batch)) := by
  decide

/-- C2 witness: the partial-cap invariant applied to a batch of 101 tasks. -/
theorem partial_cap_invariant_witness :
    totalFilesOf c2Batch > 100
    ∧ ((POSTBatchEvaluation c2Batch c2JudgeOk).isPartial = true
      ∧ (POSTBatchEvaluation c2Batch c2JudgeOk).strategy = BatchStrategy.partialCap
      ∧ (POSTBatchEvaluation c2Batch c2JudgeOk).totalFiles = some (totalFilesOf c2Batch)
      ∧ (POSTBatchEvaluation c2Batch c2JudgeOk).processedFiles =
          some (POSTBatchEvaluation c2Batch c2JudgeOk).evaluations.length
      ∧ (POSTBatchEvaluation c2Batch c2JudgeOk).evaluations.length ≤ 50
      ∧ ((∀ t ∈ collectTasks c2Batch, (c2JudgeOk t).isSome) →
          (POSTBatchEvaluation c2Batch c2JudgeOk).evaluations.length =
              min 50 (collectTasks c2Batch).length
          ∧ (evaluatePartialBatchState c2Batch c2JudgeOk 50).attempts =
              min 50 (collectTasks c2Batch).length
          ∧ (POSTBatchEvaluation c2Batch c2JudgeOk).evaluations.map namePair =
              ((collectTasks c2Batch).take 50).map
                (fun t => (t.transcriptName, t.noteFile.name)))) :=
  ⟨by decide, partial_cap_invariant c2Batch c2JudgeOk (by decide)⟩

/-- C4 counterexample: the batch enumerates one task, for which the claim's
table selects the direct strategy, yet the handler selects the chunked
strategy — the branch is driven by the 7-note `totalFiles` count, which
includes the notes of the transcript-less group. -/
theorem strategy_from_enumerated_counterexample :
    (collectTasks c4Batch).length = 1
    ∧ specStrategyOf (collectTasks c4Batch).length = BatchStrategy.direct
    ∧ (POSTBatchEvaluation c4Batch c4Judge).strategy = BatchStrategy.chunked
    ∧ ¬ ((POSTBatchEvaluation c4Batch c4Judge).strategy =
        specStrategyOf (collectTasks c4Batch).length) := by
  decide

/-- C4 (amended): the execution strategy is selected by the claim's
`T`-table applied to `totalFiles`, the note count over all groups including
those without a reference document; task enumeration itself still skips
every group without a reference document (dropping those groups leaves the
task list unchanged), so their notes inflate `T` without ever executing. -/
theorem strategy_from_totalFiles (batch : BatchStructure) (judge : Judge) :
    (POSTBatchEvaluation batch judge).strategy = specStrategyOf (totalFilesOf batch)
    ∧ collectTasks batch = collectTasks (batch.filter (fun g => g.2.transcript.isSome)) := by
  constructor
  · rw [POSTBatchEvaluation, specStrategyOf]
    by_cases h1 : totalFilesOf batch > 100
    · simp [h1]
    · by_cases h2 : totalFilesOf batch > 5 <;> simp [h1, h2]
  · induction batch with
    | nil => rfl
    | cons g gs ih =>
      rcases g with ⟨tName, grp⟩
      cases hg : grp.transcript with
      | none => simpa [collectTasks, hg, List.filter_cons] using ih
      | some c => simpa [collectTasks, hg, List.filter_cons] using ih

/-! ## The cross-group summarizer claims -/

theorem getD_of_lt {β : Type} (l : List β) (d : β) (i : Nat) (hi : i < l.length) :
    l.getD i d = l.get ⟨i, hi⟩ := by
  rw [List.getD_eq_getElem?_getD, List.getElem?_eq_getElem hi]
  simp

/-- C3 counterexample: "vA" is ranked ahead of "vB" although its unrounded
mean composite score is strictly smaller — the ranking compares the stored
one-decimal-rounded averages (7.8 against 7.8, a tie resolved first-seen),
so rounding is applied before comparison, contradicting the claim. -/
theorem summary_rounded_comparison_counterexample :
    (rankedNoteTypes c3Evals).map (fun nt => nt.filename) = ["vA", "vB"]
    ∧ rawAvgComposite (c3Evals.filter (fun e => e.noteFileName == "vA")) <
        rawAvgComposite (c3Evals.filter (fun e => e.noteFileName == "vB")) := by
  decide

/-- C3 (amended): the summarizer ranks variant names by the stored mean
composite score — the value rounded to one decimal, the same value it
displays — in descending order with the ranker's stable first-seen tie
policy: the ranking is a permutation of the per-variant statistics, sorted
so that an earlier position means strictly larger rounded mean or an equal
rounded mean and an earlier first appearance. -/
theorem summary_ranking_by_rounded_mean (evals : List Evaluation) :
    (∀ nt ∈ noteTypeStatsOf evals,
        nt.avgCompositeScore = roundTo1 (rawAvgComposite nt.evaluations))
    ∧ rankedNoteTypes evals ~ noteTypeStatsOf evals
    ∧ (rankedNoteTypes evals).Pairwise
        (fun a b => b.avgCompositeScore ≤ a.avgCompositeScore)
    ∧ (∀ i j : Nat, i < (noteTypeStatsOf evals).length →
        j < (noteTypeStatsOf evals).length → i ≠ j →
        (sortPos (fun nt => nt.avgCompositeScore) (noteTypeStatsOf evals) i <
            sortPos (fun nt => nt.avgCompositeScore) (noteTypeStatsOf evals) j ↔
          ((noteTypeStatsOf evals).getD j dfltStats).avgCompositeScore <
              ((noteTypeStatsOf evals).getD i dfltStats).avgCompositeScore
            ∨ (((noteTypeStatsOf evals).getD i dfltStats).avgCompositeScore =
                  ((noteTypeStatsOf evals).getD j dfltStats).avgCompositeScore ∧ i < j)))
    ∧ (∀ i : Nat, i < (noteTypeStatsOf evals).length →
        (rankedNoteTypes evals)[sortPos (fun nt => nt.avgCompositeScore)
            (noteTypeStatsOf evals) i]? =
          some ((noteTypeStatsOf evals).getD i dfltStats)) := by
  refine ⟨?_, jsSortDesc_perm _ _, jsSortDesc_pairwise _ _, ?_, ?_⟩
  · intro nt hnt
    rcases List.mem_map.mp hnt with ⟨g, _, rfl⟩
    rfl
  · intro i j hi hj hij
    rw [getD_of_lt _ _ i hi, getD_of_lt _ _ j hj]
    exact sortPos_lt_iff (fun nt => nt.avgCompositeScore) (noteTypeStatsOf evals) i j hi hj hij
  · intro i hi
    rw [getD_of_lt _ _ i hi]
    exact jsSortDesc_getElem_sortPos (fun nt => nt.avgCompositeScore)
      (noteTypeStatsOf evals) i hi

/-- C8: in the two-group scenario the commentary computes cross-group mean 8
and population variance 1 for "notes-gpt4o", mean 8 and variance 0 for
"notes-claude", and identifies "notes-claude" as the most consistent
variant. -/
theorem crossgroup_consistency_scenario :
    (consistencyScoresOf c8Evals).find? (fun c => c.filename == "notes-gpt4o") =
      some ⟨"notes-gpt4o", 8, 1, [9, 7]⟩
    ∧ (consistencyScoresOf c8Evals).find? (fun c => c.filename == "notes-claude") =
      some ⟨"notes-claude", 8, 0, [8, 8]⟩
    ∧ (mostConsistentOf c8Evals).map (fun c => c.filename) = some "notes-claude" := by
  decide

/-! ## The judge client claims -/

/-- The falsehood-conversion callback throws exactly on a `null` element. -/
theorem rawFalsehoodOf_eq_none_iff (p : Json × Nat) :
    rawFalsehoodOf p = none ↔ p.1 = Json.null := by
  obtain ⟨j, i⟩ := p
  cases j <;> simp [rawFalsehoodOf]

/-- The whole `falsehoods.map` conversion throws exactly when some element of
the zipped list is `null`. -/
theorem mapNullableFalsehoods_eq_none_iff :
    ∀ l : List (Json × Nat), mapNullableFalsehoods l = none ↔ ∃ p ∈ l, p.1 = Json.null
  | [] => by simp [mapNullableFalsehoods]
  | p :: l => by
    have ih := mapNullableFalsehoods_eq_none_iff l
    rw [mapNullableFalsehoods]
    by_cases hp : p.1 = Json.null
    · rw [(rawFalsehoodOf_eq_none_iff p).mpr hp]
      simp only [Option.none_bind]
      exact ⟨fun _ => ⟨p, List.mem_cons_self p l, hp⟩, fun _ => trivial⟩
    · obtain ⟨b, hb⟩ : ∃ b, rawFalsehoodOf p = some b := by
        cases h2 : rawFalsehoodOf p with
        | none => exact absurd ((rawFalsehoodOf_eq_none_iff p).mp h2) hp
        | some b => exact ⟨b, rfl⟩
      rw [hb]
      simp only [Option.some_bind, Option.map_eq_none', ih]
      constructor
      · rintro ⟨q, hq, hqn⟩
        exact ⟨q, List.mem_cons_of_mem p hq, hqn⟩
      · rintro ⟨q, hq, hqn⟩
        rcases List.mem_cons.mp hq with h | h
        · subst h
          exact absurd hqn hp
        · exact ⟨q, h, hqn⟩

/-- A `null` element of the zipped falsehoods list is the same thing as a
`null` element of the falsehoods array itself. -/
theorem exists_null_zip_iff (fs : List Json) :
    (∃ p ∈ fs.zip (List.range fs.length), p.1 = Json.null) ↔ Json.null ∈ fs := by
  constructor
  · rintro ⟨⟨a, b⟩, hp, h1⟩
    have h2 := (List.of_mem_zip hp).1
    simp only at h1
    rwa [h1] at h2
  · intro hf
    rcases List.mem_iff_getElem?.mp hf with ⟨i, hi⟩
    obtain ⟨hlt, -⟩ := List.getElem?_eq_some.mp hi
    refine ⟨(Json.null, i), ?_, rfl⟩
    exact List.mem_iff_getElem?.mpr
      ⟨i, List.getElem?_zip_eq_some.mpr ⟨hi, List.getElem?_range hlt⟩⟩

/-- C6 counterexample: a response that parses as JSON but matches none of
the score fields of the schema is silently converted into a score record
(with undefined members), not rejected with a distinct JudgeResponseInvalid
error. -/
theorem judge_client_silent_conversion_counterexample :
    evaluateDentalNotes (CompletionOutcome.success (some c6OffSchema)) =
      JudgeCallResult.ok
        ⟨⟨none, none, none⟩, ⟨none, none, none⟩, [], some (Json.str "ok"), 0⟩ := by
  rfl

/-- C6 (amended): `evaluateDentalNotes` has a single error channel — every
failure (transport error, empty response, unparsable JSON, or a conversion
throw) surfaces as the one generic wrapped error, with no distinct
JudgeResponseInvalid; and a parsed response is converted into a score record
exactly when its `falsehoods` member is an array none of whose elements is
`null` (a non-array makes `falsehoods.map` throw, a `null` element makes the
callback's `f.description` access throw, and every other field is copied
unvalidated). -/
theorem judge_client_single_error_channel :
    (∀ m : String, evaluateDentalNotes (CompletionOutcome.transportError m) =
        JudgeCallResult.error ("OpenAI-eval-error: " ++ m))
    ∧ (∀ m : String, evaluateDentalNotes (CompletionOutcome.invalidJson m) =
        JudgeCallResult.error ("OpenAI-eval-error: " ++ m))
    ∧ evaluateDentalNotes (CompletionOutcome.success none) =
        JudgeCallResult.error "OpenAI-eval-error: No response from OpenAI"
    ∧ (∀ parsed : Json,
        (∃ r, evaluateDentalNotes (CompletionOutcome.success (some parsed)) =
            JudgeCallResult.ok r) ↔
          ∃ fs, jsGet parsed "falsehoods" = some (Json.arr fs) ∧ Json.null ∉ fs) := by
  refine ⟨fun m => rfl, fun m => rfl, rfl, ?_⟩
  intro parsed
  constructor
  · rintro ⟨r, hr⟩
    cases hj : jsGet parsed "falsehoods" with
    | none => simp [evaluateDentalNotes, hj] at hr
    | some j =>
      cases j with
      | arr es =>
        refine ⟨es, rfl, ?_⟩
        cases hm : mapNullableFalsehoods (es.zip (List.range es.length)) with
        | none => simp [evaluateDentalNotes, hj, hm] at hr
        | some fl =>
          intro hnull
          have : mapNullableFalsehoods (es.zip (List.range es.length)) = none :=
            (mapNullableFalsehoods_eq_none_iff _).mpr
              ((exists_null_zip_iff es).mpr hnull)
          rw [this] at hm
          exact Option.noConfusion hm
      | null => simp [evaluateDentalNotes, hj] at hr
      | bool b => simp [evaluateDentalNotes, hj] at hr
      | num q => simp [evaluateDentalNotes, hj] at hr
      | str s2 => simp [evaluateDentalNotes, hj] at hr
      | obj fields => simp [evaluateDentalNotes, hj] at hr
  · rintro ⟨fs, hfs, hnull⟩
    obtain ⟨fl, hfl⟩ : ∃ fl, mapNullableFalsehoods (fs.zip (List.range fs.length)) = some fl := by
      cases hm : mapNullableFalsehoods (fs.zip (List.range fs.length)) with
      | none =>
        exact absurd ((exists_null_zip_iff fs).mp
          ((mapNullableFalsehoods_eq_none_iff _).mp hm)) hnull
      | some fl => exact ⟨fl, rfl⟩
    refine ⟨⟨⟨jsGet parsed "detailScore", jsGet parsed "detailExplanation",
        jsGet parsed "detailExamples"⟩,
      ⟨jsGet parsed "truthfulnessScore", jsGet parsed "truthfulnessExplanation",
        jsGet parsed "truthfulnessExamples"⟩,
      fl, jsGet parsed "summary", 0⟩, ?_⟩
    simp [evaluateDentalNotes, hfs, hfl]

end DentalNotes
